import Mathlib

/-!
Verification development for the `furk` ORM layer (package `db`).

The definitions below are a shallow embedding, transcribed from the Go
sources: `db/model.go` (schema inference, permits, change sets, statement
builders), `db/utils.go` (naming conventions) and the SQL-execution file
(`sqlWithValues.Query` / `scan` / `execute`).  Go runtime values
(`interface{}`) are modelled by the inductive `GoVal`; Go maps are
modelled as association lists where an update of an existing key replaces
the value in place and a new key is appended (exactly the observable
behaviour of a Go map plus the iteration order the program actually
relies on).  Calls into the external `encoding/json` library are modelled
by `jsonMarshal` (serialization, with Go's map-key sorting and HTML
escaping) and `unmarshalInto` (decoding a JSON value into a value of a
declared Go type, returning `none` exactly when `json.Unmarshal` reports
an error).
-/

namespace Furk

mutual

/-- Model of a Go runtime value (`interface{}`) as it can appear in raw
inputs, change sets and statement parameter lists.  Numbers are modelled
as integers, which covers every value the claims mention. -/
inductive GoVal where
  | vNull : GoVal
  | vBool : Bool → GoVal
  | vInt : Int → GoVal
  | vStr : String → GoVal
  | vArr : GoValList → GoVal
  | vObj : GoObj → GoVal
  deriving DecidableEq

/-- A list of Go values (element list of a JSON array). -/
inductive GoValList where
  | nil : GoValList
  | cons : GoVal → GoValList → GoValList
  deriving DecidableEq

/-- Key/value members of a JSON object. -/
inductive GoObj where
  | nil : GoObj
  | cons : String → GoVal → GoObj → GoObj
  deriving DecidableEq

end

/-- Single quote character (ASCII 39), used in generated SQL text. -/
def sq : String := String.singleton (Char.ofNat 39)

/-- JSON string escaping as performed by Go's `encoding/json` for the
characters that can occur in our value universe (quote, backslash, and
the HTML-escaped `<`, `>`, `&`; control characters are not modelled). -/
def jsonEscapeChar (c : Char) : String :=
  if c = Char.ofNat 34 then "\\" ++ String.singleton (Char.ofNat 34)
  else if c = Char.ofNat 92 then "\\\\"
  else if c = Char.ofNat 60 then "\\u003c"
  else if c = Char.ofNat 62 then "\\u003e"
  else if c = Char.ofNat 38 then "\\u0026"
  else String.singleton c

def jsonEscape (s : String) : String :=
  String.join (s.toList.map jsonEscapeChar)

def jsonQuote (s : String) : String :=
  String.singleton (Char.ofNat 34) ++ jsonEscape s ++ String.singleton (Char.ofNat 34)

/-- Bytewise (here: characterwise, all keys are ASCII) string order used
by `encoding/json` when sorting a Go map's keys. -/
def lexLe : List Char → List Char → Bool
  | [], _ => true
  | _ :: _, [] => false
  | a :: as, b :: bs =>
      if a.val.toNat < b.val.toNat then true
      else if b.val.toNat < a.val.toNat then false
      else lexLe as bs

def keyLe (a b : String) : Bool := lexLe a.toList b.toList

/-- Insertion sort of an association list by key, mirroring the sorted
map-key order `encoding/json` uses when marshalling a Go map. -/
def insertSorted (p : String × GoVal) : List (String × GoVal) → List (String × GoVal)
  | [] => [p]
  | q :: rest => if keyLe p.1 q.1 then p :: q :: rest else q :: insertSorted p rest

def sortByKey : List (String × GoVal) → List (String × GoVal)
  | [] => []
  | p :: rest => insertSorted p (sortByKey rest)

mutual

/-- `json.Marshal` on our value universe.  Object fields built from a Go
map are emitted in sorted key order (`sortByKey` is applied by the caller
that models marshalling of a `map[string]interface{}`). -/
def jsonMarshal : GoVal → String
  | GoVal.vNull => "null"
  | GoVal.vBool true => "true"
  | GoVal.vBool false => "false"
  | GoVal.vInt n => toString n
  | GoVal.vStr s => jsonQuote s
  | GoVal.vArr l => "[" ++ jsonMarshalList l ++ "]"
  | GoVal.vObj l => "\x7b" ++ jsonMarshalObj l ++ "\x7d"

def jsonMarshalList : GoValList → String
  | GoValList.nil => ""
  | GoValList.cons x GoValList.nil => jsonMarshal x
  | GoValList.cons x (GoValList.cons y rest) =>
      jsonMarshal x ++ "," ++ jsonMarshalList (GoValList.cons y rest)

def jsonMarshalObj : GoObj → String
  | GoObj.nil => ""
  | GoObj.cons k v GoObj.nil => jsonQuote k ++ ":" ++ jsonMarshal v
  | GoObj.cons k v (GoObj.cons k2 v2 rest) =>
      jsonQuote k ++ ":" ++ jsonMarshal v ++ "," ++
        jsonMarshalObj (GoObj.cons k2 v2 rest)

end

/-- Turn an assoc list into object members. -/
def toGoObj : List (String × GoVal) → GoObj
  | [] => GoObj.nil
  | (k, v) :: rest => GoObj.cons k v (toGoObj rest)

/-- Marshal a Go `map[string]interface{}` (assoc list): keys sorted. -/
def jsonMarshalMap (l : List (String × GoVal)) : String :=
  jsonMarshal (GoVal.vObj (toGoObj (sortByKey l)))

example : jsonMarshalMap [("picture", GoVal.vStr "world!")] =
    "\x7b\"picture\":\"world!\"\x7d" := by decide

example : jsonMarshal (GoVal.vStr "WORLD!") = "\"WORLD!\"" := by decide

example : sq = "'" := by decide

/-! ### Association lists with Go-map update semantics

A Go map holds each key once; writing an existing key replaces its value,
writing a new key adds it.  We linearize a map as an association list in
insertion order (Go's iteration order is unspecified; the list order is
one admissible linearization, and no theorem below depends on more than
the map's key/value contents except where the program itself fixes the
order by iterating a slice). -/

def alLookup {κ α : Type} [DecidableEq κ] : List (κ × α) → κ → Option α
  | [], _ => none
  | (k, v) :: rest, key => if k = key then some v else alLookup rest key

def alUpdate {κ α : Type} [DecidableEq κ] : List (κ × α) → κ → α → List (κ × α)
  | [], key, val => [(key, val)]
  | (k, v) :: rest, key, val =>
      if k = key then (k, val) :: rest else (k, v) :: alUpdate rest key val

/-! ### String helpers

Kernel-reducible (structurally recursive) counterparts of the `strings`
package functions the sources call; Lean's own `String.trim` and
`String.splitOn` use well-founded recursion that `decide` cannot
evaluate, so these work on character lists instead. -/

/-- `strings.TrimSpace` (ASCII whitespace, which covers every input the
claims mention). -/
def goTrim (s : String) : String :=
  String.mk
    (((s.toList.dropWhile Char.isWhitespace).reverse.dropWhile
      Char.isWhitespace).reverse)

/-- `strings.HasPrefix`. -/
def strHasPrefix (s pre : String) : Bool := List.isPrefixOf pre.toList s.toList

/-- `strings.HasSuffix`. -/
def strHasSuffix (s suf : String) : Bool := List.isSuffixOf suf.toList s.toList

/-- Drop the first character (`strings.TrimPrefix` for a one-character
prefix, applied only under a `HasPrefix` guard). -/
def strDropOne (s : String) : String := String.mk (s.toList.drop 1)

/-- Drop the last character. -/
def strDropLast (s : String) : String := String.mk s.toList.dropLast

/-- `strings.Join`. -/
def joinSep (sep : String) : List String → String
  | [] => ""
  | [x] => x
  | x :: y :: rest => x ++ sep ++ joinSep sep (y :: rest)

/-! ### Naming conventions (`db/utils.go`) -/

/-- `addSegment` from `db/utils.go`. -/
def addSegment (inrune segment : List Char) : List Char :=
  if segment = [] then inrune
  else (if inrune = [] then inrune else inrune ++ ['_']) ++ segment

/-- Loop body of `camelCaseToUnderscore`; `output` and `segment` are the
accumulators of the Go for-loop.  Character classes are the ASCII
restrictions of `unicode.IsLower` / `unicode.IsNumber` /
`unicode.ToLower`, which agree with Go on every identifier the claims
mention. -/
def camelLoop : List Char → List Char → List Char → List Char
  | output, segment, [] => addSegment output segment
  | output, segment, r :: rest =>
      if ¬ r.isLower ∧ r ≠ '_' ∧ ¬ r.isDigit then
        camelLoop (addSegment output segment) [r.toLower] rest
      else
        camelLoop output (segment ++ [r.toLower]) rest

/-- `camelCaseToUnderscore` from `db/utils.go`. -/
def camelCaseToUnderscore (str : String) : String :=
  String.mk (camelLoop [] [] str.toList)

def DefaultColumnizer (s : String) : String := camelCaseToUnderscore s

/-- `ToColumnName` from `db/utils.go` (with the default `Columnizer`). -/
def ToColumnName (s : String) : String := DefaultColumnizer (goTrim s)

/-- `DefaultPluralizer` from `db/utils.go`. -/
def DefaultPluralizer (s : String) : String :=
  if strHasSuffix s "y" then strDropLast s ++ "ies"
  else if strHasSuffix s "s" ∨ strHasSuffix s "o" then s ++ "es"
  else s ++ "s"

example : camelCaseToUnderscore "Post" = "post" := by decide
example : camelCaseToUnderscore "UserId" = "user_id" := by decide

/-! ### Schema inference (`db/model.go`, `parseStruct`) -/

/-- One declared struct field as reflection presents it to `parseStruct`:
the field name, the raw values of its `column` / `json` / `jsonb` /
`dataType` tags (`""` when the tag is absent, exactly what
`reflect.StructTag.Get` returns), the value type's string form
(`reflect.Type.String()`), and the package path (`""` for an exported
field).  Anonymous (embedded) members are spliced into the field list by
the caller, mirroring `parseStruct`'s recursion on `f.Anonymous`. -/
structure GoField where
  name : String
  tagColumn : String
  tagJson : String
  tagJsonb : String
  tagDataType : String
  typeStr : String
  pkgPath : String
  deriving DecidableEq

/-- Field descriptor (`Field` in `db/model.go`). -/
structure Field where
  name : String
  columnName : String
  jsonName : String
  jsonb : String
  dataType : String
  exported : Bool
  deriving DecidableEq

/-- Go's `s[:strings.Index(s, ",")]` when a comma is present, else `s`. -/
def beforeComma (s : String) : String := String.mk (s.toList.takeWhile (fun c => c ≠ ','))

/-- Whether `sub` occurs in `l` (`strings.Contains` on rune lists). -/
def listHasSub (sub : List Char) : List Char → Bool
  | [] => sub = []
  | c :: rest => List.isPrefixOf sub (c :: rest) ∨ listHasSub sub rest

/-- `strings.Contains`. -/
def strContains (s sub : String) : Bool := listHasSub sub.toList s.toList

example : strContains "uintptr" "int" = true := by decide
example : strContains "interface \x7b\x7d" "int" = true := by decide
example : strContains "string" "int" = false := by decide

/-- The type→data-type table in `parseStruct`'s `switch tp` plus the
`NOT NULL` suffix for non-pointer fields. -/
def switchDataType (tp : String) (null : Bool) : String :=
  let base :=
    if tp = "int8" ∨ tp = "int16" ∨ tp = "int32" ∨ tp = "uint8" ∨
        tp = "uint16" ∨ tp = "uint32" then "integer DEFAULT 0"
    else if tp = "int64" ∨ tp = "uint64" ∨ tp = "int" ∨ tp = "uint" then
      "bigint DEFAULT 0"
    else if tp = "time.Time" then "timestamptz DEFAULT NOW()"
    else if tp = "float32" ∨ tp = "float64" then "numeric(10,2) DEFAULT 0.0"
    else if tp = "decimal.Decimal" then "numeric(10, 2) DEFAULT 0.0"
    else if tp = "bool" then "boolean DEFAULT false"
    else "text DEFAULT ''::text"
  if ¬ null then base ++ " NOT NULL" else base

/-- The data-type computation of `parseStruct` for one field (the
`dataType` block of `db/model.go` lines 754–785). -/
def fieldDataType (f : GoField) (columnName jsonb : String) : String :=
  if f.tagDataType ≠ "" then f.tagDataType
  else
    let tp := f.typeStr
    let null := strHasPrefix tp "*"
    let tp := if strHasPrefix tp "*" then strDropOne tp else tp
    if columnName = "id" ∧ strContains tp "int" then "SERIAL PRIMARY KEY"
    else if jsonb = "" then switchDataType tp null
    else ""

/-- The descriptor one iteration of `parseStruct`'s loop derives from a
declared field: `none` on the two `continue` paths (explicitly excluded
column, or unexported field without a column override), otherwise the
`Field` record appended to the field list. -/
def parseFieldDesc (f : GoField) : Option Field :=
  if f.tagColumn = "-" then none
  else
    let columnName := beforeComma f.tagColumn
    if columnName = "" ∧ f.pkgPath ≠ "" then none
    else
      let columnName := if columnName = "" then ToColumnName f.name else columnName
      let jsonName :=
        if f.tagJson = "-" then ""
        else if beforeComma f.tagJson = "" then f.name
        else beforeComma f.tagJson
      let jsonb := ToColumnName (beforeComma f.tagJsonb)
      some { name := f.name, exported := f.pkgPath = "",
             columnName := columnName, jsonName := jsonName,
             jsonb := jsonb, dataType := fieldDataType f columnName jsonb }

/-- Loop body of `parseStruct`: processes one declared field, extending
the accumulated field list and (when the descriptor carries a new jsonb
column name) the jsonb column list. -/
def parseStructStep (acc : List Field × List String) (f : GoField) :
    List Field × List String :=
  match parseFieldDesc f with
  | none => acc
  | some fd =>
      (acc.1 ++ [fd],
       if fd.jsonb ≠ "" ∧ ¬ acc.2.contains fd.jsonb then acc.2 ++ [fd.jsonb]
       else acc.2)

/-- `parseStruct` over the (flattened) declared field list. -/
def parseStruct (fs : List GoField) : List Field × List String :=
  fs.foldl parseStructStep ([], [])

/-! ### Model construction (`db/model.go`) -/

/-- A struct type as `NewModel` receives it: its declared name, the tag
of a `__TABLE_NAME__` member when one is declared, whether a
`TableName() string` method is provided, and the declared fields (the
`__TABLE_NAME__` member itself is unexported with no column override, so
`parseStruct` skips it; we keep it out of `fields`). -/
structure GoStructDef where
  name : String
  tableNameTag : Option String
  tableNameMethod : Option String
  fields : List GoField
  deriving DecidableEq

/-- `ToTableName` from `db/utils.go`: method > `__TABLE_NAME__` tag >
pluralized column-name transform of the type name. -/
def ToTableName (sd : GoStructDef) : String :=
  match sd.tableNameMethod with
  | some n => n
  | none =>
      match sd.tableNameTag with
      | some tag => if tag ≠ "" then tag else fallbackTableName sd.name
      | none => fallbackTableName sd.name
where
  fallbackTableName (typeName : String) : String :=
    let n := ToColumnName typeName
    if n = "" then "error_no_table_name" else DefaultPluralizer n

/-- `Model` (`db/model.go`): table name, the struct type (`none` models a
`nil` `structType`, as produced by `NewModelTable`), the parsed field
descriptors and the distinct jsonb column names.  The connection and
logger are not part of the pure statement-building core. -/
structure Model where
  tableName : String
  structFields : Option (List GoField)
  modelFields : List Field
  jsonbColumns : List String
  deriving DecidableEq

/-- `NewModel` (without driver options). -/
def NewModel (sd : GoStructDef) : Model :=
  { tableName := ToTableName sd
    structFields := some sd.fields
    modelFields := (parseStruct sd.fields).1
    jsonbColumns := (parseStruct sd.fields).2 }

/-- `reflect.Type.FieldByName` on the model's struct type. -/
def structFieldByName (m : Model) (n : String) : Option GoField :=
  match m.structFields with
  | none => none
  | some fs => fs.find? (fun f => f.name = n)

/-- Raw external input (`RawChanges`, i.e. `map[string]interface{}`). -/
def RawChanges : Type := List (String × GoVal)

/-- A change set (`Changes`, i.e. `map[Field]interface{}`). -/
def Changes : Type := List (Field × GoVal)

instance : DecidableEq RawChanges := by unfold RawChanges; infer_instance

instance : DecidableEq Changes := by unfold Changes; infer_instance

instance : Membership (Field × GoVal) Changes := by unfold Changes; infer_instance

/-- `Model.Permit`: indices of the model fields whose struct-field name
occurs among the requested names (the inner loop `break`s at the first
match, so each field index is appended at most once). -/
def permitIdx (m : Model) (fieldNames : List String) : List Nat :=
  (m.modelFields.enum.foldl
    (fun idx p =>
      if fieldNames.any (fun n => n = p.2.name) then idx ++ [p.1] else idx) [])

/-- `ModelWithPermittedFields`. -/
structure Permitted where
  model : Model
  permittedFieldsIdx : List Nat

def Model.Permit (m : Model) (fieldNames : List String) : Permitted :=
  { model := m, permittedFieldsIdx := permitIdx m fieldNames }

/-- `Model.PermitAllExcept`. -/
def Model.PermitAllExcept (m : Model) (fieldNames : List String) : Permitted :=
  { model := m
    permittedFieldsIdx :=
      m.modelFields.enum.foldl
        (fun idx p =>
          if fieldNames.any (fun n => n = p.2.name) then idx else idx ++ [p.1]) [] }

/-! ### JSON coercion (the `encoding/json` round trip in `filterPermits`)

`filterPermits` validates a raw value by `json.Marshal`-ing it and
`json.Unmarshal`-ing the result into a freshly allocated value of the
struct field's declared type; a failure drops the field.  `unmarshalInto`
models that round trip on our value universe for the declared types the
model layer distinguishes; decoding `null` leaves the fresh value at its
zero value and succeeds, numbers out of the target's range fail,
and a value of the wrong JSON kind fails, as in `encoding/json`.
Types outside this table (structs, slices, maps, `time.Time`, …) are
modelled conservatively: only `null` decodes into them. -/

def intTypeRange (tp : String) : Option (Int × Int) :=
  if tp = "int8" then some (-128, 127)
  else if tp = "int16" then some (-32768, 32767)
  else if tp = "int32" then some (-2147483648, 2147483647)
  else if tp = "int64" ∨ tp = "int" then
    some (-9223372036854775808, 9223372036854775807)
  else if tp = "uint8" then some (0, 255)
  else if tp = "uint16" then some (0, 65535)
  else if tp = "uint32" then some (0, 4294967295)
  else if tp = "uint64" ∨ tp = "uint" then some (0, 18446744073709551615)
  else none

/-- The zero value of a declared type (what `reflect.New` allocates). -/
def zeroOf (tp : String) : GoVal :=
  if strHasPrefix tp "*" then GoVal.vNull
  else if tp = "string" then GoVal.vStr ""
  else if (intTypeRange tp).isSome ∨ tp = "float32" ∨ tp = "float64" then
    GoVal.vInt 0
  else if tp = "bool" then GoVal.vBool false
  else GoVal.vNull

/-- Decode a (marshalled) value into a fresh value of type `tp`;
`none` models a `json.Unmarshal` error. -/
def unmarshalInto (tp : String) (v : GoVal) : Option GoVal :=
  if strHasPrefix tp "*" then
    match v with
    | GoVal.vNull => some GoVal.vNull
    | _ => unmarshalIntoBase (strDropOne tp) v
  else unmarshalIntoBase tp v
where
  unmarshalIntoBase (tp : String) (v : GoVal) : Option GoVal :=
    match v with
    | GoVal.vNull => some (zeroOf tp)
    | GoVal.vStr s => if tp = "string" then some (GoVal.vStr s) else none
    | GoVal.vBool b => if tp = "bool" then some (GoVal.vBool b) else none
    | GoVal.vInt n =>
        match intTypeRange tp with
        | some (lo, hi) => if lo ≤ n ∧ n ≤ hi then some (GoVal.vInt n) else none
        | none =>
            if tp = "float32" ∨ tp = "float64" then some (GoVal.vInt n) else none
    | _ => none

/-! ### Change set building (`Filter`, `filterPermits`, `Changes`) -/

/-- The per-field body of `filterPermits` (`db/model.go` 365–384): look
the field up by its JSON name, skip when the model has no struct type,
coerce via the marshal/unmarshal round trip into the struct field's
type, and store the coerced value (a failed coercion skips the field). -/
def filterPermitsBody (m : Model) (input : RawChanges) (out : Changes)
    (field : Field) : Changes :=
  match alLookup input field.jsonName with
  | none => out
  | some v =>
      if m.structFields = none then out
      else
        match structFieldByName m field.name with
        | none => out
        | some f =>
            match unmarshalInto f.typeStr v with
            | none => out
            | some x => alUpdate out field x

/-- `ModelWithPermittedFields.filterPermits` (`db/model.go` 363–386). -/
def filterPermits (mp : Permitted) (input : RawChanges) (out : Changes) : Changes :=
  mp.permittedFieldsIdx.foldl
    (fun out i =>
      match mp.model.modelFields.get? i with
      | none => out
      | some field => filterPermitsBody mp.model input out field)
    out

/-- One input to `Filter`.  The `string` / `[]byte` / `io.Reader` cases
all `json.Unmarshal` the text into a `RawChanges` first; `jsonText`
carries the outcome of that external decode (`none` = unparsable input,
which contributes nothing).  `structIn` carries a struct value's
declared fields in order with their runtime values. -/
inductive FilterInput where
  | raw : RawChanges → FilterInput
  | jsonText : Option RawChanges → FilterInput
  | structIn : List (String × GoVal) → FilterInput

/-- One iteration of `Filter`'s input loop (`db/model.go` 321–358): a
map input goes through `filterPermits`, text inputs go through the
external JSON decode first (an undecodable input contributes nothing),
and a struct input matches its declared fields against the permitted
fields by struct-field name, storing the values verbatim. -/
def filterStep (mp : Permitted) (out : Changes) (input : FilterInput) : Changes :=
  match input with
  | FilterInput.raw c => filterPermits mp c out
  | FilterInput.jsonText (some c) => filterPermits mp c out
  | FilterInput.jsonText none => out
  | FilterInput.structIn fs =>
      let fieldsByName : List (String × Field) :=
        mp.permittedFieldsIdx.foldl
          (fun acc i =>
            match mp.model.modelFields.get? i with
            | none => acc
            | some field => alUpdate acc field.name field) []
      fs.foldl
        (fun out p =>
          match alLookup fieldsByName p.1 with
          | none => out
          | some field => alUpdate out field p.2) out

/-- `ModelWithPermittedFields.Filter` (`db/model.go` 319–361). -/
def Permitted.Filter (mp : Permitted) (inputs : List FilterInput) : Changes :=
  inputs.foldl (filterStep mp) []

/-- `Model.Changes` (`db/model.go` 395–404): unconditional extraction,
no permission filter and no coercion — the raw value is stored as-is. -/
def Model.Changes (m : Model) (input : RawChanges) : Changes :=
  m.modelFields.foldl
    (fun out field =>
      match alLookup input field.jsonName with
      | none => out
      | some v => alUpdate out field v) []

/-! ### Statement builders (`Model.Insert`, `Model.Update`) -/

/-- `fmt.Sprintf("$%d", i)`. -/
def dollar (n : Nat) : String := "$" ++ toString n

/-- Loop state of `Model.Insert`: the five accumulators plus the
placeholder counter `i`. -/
structure InsState where
  fields : List String
  fieldsIndex : List (String × Nat)
  numbers : List String
  values : List GoVal
  jsonbFields : List (String × Changes)
  i : Nat
  deriving DecidableEq

def insInit : InsState :=
  { fields := [], fieldsIndex := [], numbers := [], values := [],
    jsonbFields := [], i := 1 }

/-- Body of `Insert`'s double loop for one `(field, value)` pair
(`db/model.go` 566–583).  In the not-yet-seen branch the Go code writes
`fieldsIndex[field.Name] = i - 1`; the name is absent there, so the map
write is an append. -/
def insStep (s : InsState) (p : Field × GoVal) : InsState :=
  if p.1.jsonb ≠ "" then
    let inner := (alLookup s.jsonbFields p.1.jsonb).getD []
    { s with jsonbFields := alUpdate s.jsonbFields p.1.jsonb (alUpdate inner p.1 p.2) }
  else
    match alLookup s.fieldsIndex p.1.name with
    | some idx => { s with values := s.values.set idx p.2 }
    | none =>
        { s with
          fields := s.fields ++ [p.1.columnName]
          fieldsIndex := s.fieldsIndex ++ [(p.1.name, s.i - 1)]
          numbers := s.numbers ++ [dollar s.i]
          values := s.values ++ [p.2]
          i := s.i + 1 }

/-- The jsonb object a document column's change group marshals to:
`out[field.ColumnName] = value` over the group, then `json.Marshal`
(map keys sorted). -/
def jsonbGroupText (c : Changes) : String :=
  jsonMarshalMap (c.foldl (fun out q => alUpdate out q.1.columnName q.2) [])

/-- Body of `Insert`'s jsonb loop (`db/model.go` 585–595). -/
def insJsonbStep (s : InsState) (p : String × Changes) : InsState :=
  { s with
    fields := s.fields ++ [p.1]
    numbers := s.numbers ++ [dollar s.i]
    values := s.values ++ [GoVal.vStr (jsonbGroupText p.2)]
    i := s.i + 1 }

/-- `Model.Insert(lotsOfChanges...)(suffix)` (`db/model.go` 553–599),
returning the SQL text (after `NewSQLWithValues`'s `TrimSpace`) and the
ordered parameter values. -/
def Model.Insert (m : Model) (lotsOfChanges : List Furk.Changes) (suffix : String) :
    String × List GoVal :=
  let s := lotsOfChanges.foldl (fun st c => c.foldl insStep st) insInit
  let s := s.jsonbFields.foldl insJsonbStep s
  let sql := "INSERT INTO " ++ m.tableName ++ " (" ++
    joinSep ", " s.fields ++ ") VALUES (" ++
    joinSep ", " s.numbers ++ ") " ++ suffix
  (goTrim sql, s.values)

/-- Loop state of `Model.Update`. -/
structure UpdState where
  fields : List String
  fieldsIndex : List (String × Nat)
  values : List GoVal
  jsonbFields : List (String × Changes)
  i : Nat
  deriving DecidableEq

/-- Body of `Update`'s double loop for one pair (`db/model.go` 623–639). -/
def updStep (s : UpdState) (p : Field × GoVal) : UpdState :=
  if p.1.jsonb ≠ "" then
    let inner := (alLookup s.jsonbFields p.1.jsonb).getD []
    { s with jsonbFields := alUpdate s.jsonbFields p.1.jsonb (alUpdate inner p.1 p.2) }
  else
    match alLookup s.fieldsIndex p.1.name with
    | some idx => { s with values := s.values.set idx p.2 }
    | none =>
        { s with
          fields := s.fields ++ [p.1.columnName ++ " = " ++ dollar s.i]
          fieldsIndex := s.fieldsIndex ++ [(p.1.name, s.i - 1)]
          values := s.values ++ [p.2]
          i := s.i + 1 }

/-- Body of `Update`'s jsonb loop (`db/model.go` 641–650): one nested
`jsonb_set` patch per constituent field, each with its own parameter. -/
def updJsonbStep (s : UpdState) (p : String × Changes) : UpdState :=
  let start : String × List GoVal × Nat :=
    ("COALESCE(" ++ p.1 ++ ", '\x7b\x7d'::jsonb)", s.values, s.i)
  let folded := p.2.foldl
    (fun acc q =>
      match acc with
      | (expr, vals, i) =>
          ("jsonb_set(" ++ expr ++ ", '\x7b" ++ q.1.columnName ++ "\x7d', " ++
            dollar i ++ ")",
           vals ++ [GoVal.vStr (jsonMarshal q.2)], i + 1)) start
  match folded with
  | (expr, vals, i) =>
      { s with fields := s.fields ++ [p.1 ++ " = " ++ expr], values := vals, i := i }

/-- `Model.Update(lotsOfChanges...)(where, args...)` (`db/model.go`
607–654): the leading WHERE clause's positional arguments are placed
before the SET-clause parameters (`values` starts as `args` and `i` as
`len(args)+1`). -/
def Model.Update (m : Model) (lotsOfChanges : List Furk.Changes)
    (whereClause : String) (args : List GoVal) : String × List GoVal :=
  let init : UpdState :=
    { fields := [], fieldsIndex := [], values := args, jsonbFields := [],
      i := args.length + 1 }
  let s := lotsOfChanges.foldl (fun st c => c.foldl updStep st) init
  let s := s.jsonbFields.foldl updJsonbStep s
  let sql := "UPDATE " ++ m.tableName ++ " SET " ++
    joinSep ", " s.fields ++ " " ++ whereClause
  (goTrim sql, s.values)

/-! ### The `Post` model of the spec's scenarios -/

/-- The scenario type `struct { Id int; Name string; Picture string
`jsonb:"meta"` }` named `Post`. -/
def postStruct : GoStructDef :=
  { name := "Post", tableNameTag := none, tableNameMethod := none
    fields :=
      [{ name := "Id", tagColumn := "", tagJson := "", tagJsonb := "",
         tagDataType := "", typeStr := "int", pkgPath := "" },
       { name := "Name", tagColumn := "", tagJson := "", tagJsonb := "",
         tagDataType := "", typeStr := "string", pkgPath := "" },
       { name := "Picture", tagColumn := "", tagJson := "", tagJsonb := "meta",
         tagDataType := "", typeStr := "string", pkgPath := "" }] }

def postModel : Model := NewModel postStruct

example : postModel.tableName = "posts" := by decide

example : postModel.modelFields.map Field.columnName = ["id", "name", "picture"] := by decide

example : (postModel.Permit ["Name", "Picture"]).Filter
    [FilterInput.raw [("Name", GoVal.vStr "hello"), ("Picture", GoVal.vStr "world!")]] =
    [(⟨"Name", "name", "Name", "", "text DEFAULT ''::text NOT NULL", true⟩, GoVal.vStr "hello"),
     (⟨"Picture", "picture", "Picture", "meta", "", true⟩, GoVal.vStr "world!")] := by decide

/-! ## Claim theorems -/

/-- C4: for the model over `struct { Id int; Name string; Picture string
`jsonb:"meta"` }`, `Insert` applied to
`Permit("Name","Picture").Filter({"Name":"hello","Picture":"world!"})`
with suffix `RETURNING id` yields exactly
`INSERT INTO posts (name, meta) VALUES ($1, $2) RETURNING id` with the
ordered values `["hello", "{\"picture\":\"world!\"}"]`: one
placeholder for the flat column and exactly one for the document column,
whose value is a JSON object keyed by the constituent field's column
name. -/
theorem c4_insert_scenario :
    postModel.Insert
      [(postModel.Permit ["Name", "Picture"]).Filter
        [FilterInput.raw [("Name", GoVal.vStr "hello"), ("Picture", GoVal.vStr "world!")]]]
      "RETURNING id" =
    ("INSERT INTO posts (name, meta) VALUES ($1, $2) RETURNING id",
     [GoVal.vStr "hello", GoVal.vStr "\x7b\"picture\":\"world!\"\x7d"]) := by
  decide

/-- C5: for the same model, `Update` applied to
`Permit("Picture").Filter({"Picture":"WORLD!"})` with leading clause
`WHERE id = $1` and argument `7` yields exactly
`UPDATE posts SET meta = jsonb_set(COALESCE(meta, '{}'::jsonb), '{picture}', $2) WHERE id = $1`
with values `[7, "\"WORLD!\""]`: the leading WHERE argument takes `$1`
and the SET-clause parameters are numbered after it. -/
theorem c5_update_scenario :
    postModel.Update
      [(postModel.Permit ["Picture"]).Filter
        [FilterInput.raw [("Picture", GoVal.vStr "WORLD!")]]]
      "WHERE id = $1" [GoVal.vInt 7] =
    ("UPDATE posts SET meta = jsonb_set(COALESCE(meta, '\x7b\x7d'::jsonb), '\x7bpicture\x7d', $2) WHERE id = $1",
     [GoVal.vInt 7, GoVal.vStr "\"WORLD!\""]) := by
  decide

/-! ### C8: schema inference data types -/

/-- Strip one leading `*` (the optional/pointer marker), as the
`dataType` block does before consulting the type table. -/
def stripStar (tp : String) : String :=
  if strHasPrefix tp "*" then strDropOne tp else tp

/-- The claim's fixed type table, written from the spec's words: the
small integer widths map to `integer`, the 64-bit/default widths to
`bigint`, `time.Time` to `timestamptz`, the floating/decimal types to
`numeric`, `bool` to `boolean`, and any other type falls back to the
generic `text` type. -/
def claimSqlClass (tp : String) : String :=
  if tp = "int8" ∨ tp = "int16" ∨ tp = "int32" ∨ tp = "uint8" ∨
      tp = "uint16" ∨ tp = "uint32" then "integer"
  else if tp = "int64" ∨ tp = "uint64" ∨ tp = "int" ∨ tp = "uint" then "bigint"
  else if tp = "time.Time" then "timestamptz"
  else if tp = "float32" ∨ tp = "float64" then "numeric"
  else if tp = "decimal.Decimal" then "numeric"
  else if tp = "bool" then "boolean"
  else "text"

/-- The claim's "integer field": a field of one of Go's integer types. -/
def claimIntegerTypes : List String :=
  ["int8", "int16", "int32", "int64", "uint8", "uint16", "uint32", "uint64",
   "int", "uint"]

/-- C8 as the claim words it, at one declared field `f` with derived
descriptor `fd`: an integer field whose column name is `id` is
special-cased to the auto-incrementing primary-key type; every other
field's declared data type starts with the table's SQL type and carries
`NOT NULL` exactly when the field's type is not a pointer. -/
def c8ClaimAt (f : GoField) (fd : Field) : Prop :=
  ((fd.columnName = "id" ∧ claimIntegerTypes.contains (stripStar f.typeStr) = true) →
    fd.dataType = "SERIAL PRIMARY KEY") ∧
  (¬ (fd.columnName = "id" ∧ claimIntegerTypes.contains (stripStar f.typeStr) = true) →
    strHasPrefix fd.dataType (claimSqlClass (stripStar f.typeStr)) = true ∧
    (strHasSuffix fd.dataType " NOT NULL" = true ↔ strHasPrefix f.typeStr "*" = false))

/-- C8 as the code computes it: identical to `c8ClaimAt` except that the
`id` special case fires whenever the type's name merely contains the
substring `int` (`strings.Contains(tp, "int")`), which covers all
integer types but also non-integer types such as `interface {}`. -/
def c8AmendedAt (f : GoField) (fd : Field) : Prop :=
  ((fd.columnName = "id" ∧ strContains (stripStar f.typeStr) "int" = true) →
    fd.dataType = "SERIAL PRIMARY KEY") ∧
  (¬ (fd.columnName = "id" ∧ strContains (stripStar f.typeStr) "int" = true) →
    strHasPrefix fd.dataType (claimSqlClass (stripStar f.typeStr)) = true ∧
    (strHasSuffix fd.dataType " NOT NULL" = true ↔ strHasPrefix f.typeStr "*" = false))

/-- The descriptor `parseStruct` derives from a single declared field
(`none` when the field is skipped). -/
def fieldDescOf (f : GoField) : Option Field := (parseStruct [f]).1.head?

/-- A declared field `Id interface{}` (no tags): its type string
`interface {}` contains the substring `int`. -/
def c8CounterField : GoField :=
  { name := "Id", tagColumn := "", tagJson := "", tagJsonb := "",
    tagDataType := "", typeStr := "interface \x7b\x7d", pkgPath := "" }

/-- C8 counterexample: for the untagged non-document field
`Id interface{}`, schema inference declares `SERIAL PRIMARY KEY`
(because `interface {}` contains the substring `int`), while the
claim's table demands the generic `text` fallback with `NOT NULL` —
so the claim as stated is false at this field. -/
theorem c8_counterexample :
    fieldDescOf c8CounterField =
      some ⟨"Id", "id", "Id", "", "SERIAL PRIMARY KEY", true⟩ ∧
    ¬ c8ClaimAt c8CounterField ⟨"Id", "id", "Id", "", "SERIAL PRIMARY KEY", true⟩ := by
  constructor
  · decide
  · intro h
    exact absurd (h.2 (by decide)).1 (by decide)

/-- The table plus `NOT NULL` rule for every branch of `switchDataType`:
the generated string starts with the claimed SQL type and ends with
`NOT NULL` exactly when the field is not nullable. -/
theorem switchDataType_spec (tp : String) (null : Bool) :
    strHasPrefix (switchDataType tp null) (claimSqlClass tp) = true ∧
    (strHasSuffix (switchDataType tp null) " NOT NULL" = true ↔ null = false) := by
  unfold switchDataType claimSqlClass
  cases null <;> split_ifs <;> simp_all <;> decide

/-- The single-field descriptor equals the loop body's derived
descriptor. -/
theorem fieldDescOf_parseFieldDesc (f : GoField) (fd : Field)
    (h : fieldDescOf f = some fd) : parseFieldDesc f = some fd := by
  unfold fieldDescOf parseStruct at h
  simp only [List.foldl, parseStructStep] at h
  cases hp : parseFieldDesc f with
  | none => rw [hp] at h; simp at h
  | some fd2 => rw [hp] at h; simp at h; rw [h]

/-- A kept descriptor's data type is the `dataType` block's result at
its own column and jsonb names. -/
theorem parseFieldDesc_dataType (f : GoField) (fd : Field)
    (h : parseFieldDesc f = some fd) :
    fd.dataType = fieldDataType f fd.columnName fd.jsonb := by
  unfold parseFieldDesc at h
  split_ifs at h <;> simp_all
  all_goals obtain ⟨-, rfl⟩ := h
  all_goals rfl

/-- Evaluation of the `dataType` block for an untagged non-document
field: the `id`/`int`-substring special case, else the fixed table. -/
theorem fieldDataType_eval (f : GoField) (col : String) (htag : f.tagDataType = "") :
    fieldDataType f col "" =
      if col = "id" ∧ strContains (stripStar f.typeStr) "int" = true
      then "SERIAL PRIMARY KEY"
      else switchDataType (stripStar f.typeStr) (strHasPrefix f.typeStr "*") := by
  unfold fieldDataType stripStar
  rw [htag]
  simp

/-- C8 (amended): schema inference is total, and for every non-document
field without an explicit data-type tag the declared data type follows
the fixed table with `NOT NULL` iff the field is not a pointer — except
that the auto-incrementing-primary-key special case for column `id`
fires whenever the (pointer-stripped) type name contains the substring
`int`, which covers every integer type but also non-integer types such
as `interface {}` or `uintptr`-like names. -/
theorem c8_data_type_table (f : GoField) (fd : Field)
    (htag : f.tagDataType = "")
    (hdesc : fieldDescOf f = some fd)
    (hjsonb : fd.jsonb = "") :
    c8AmendedAt f fd := by
  have hdt := parseFieldDesc_dataType f fd (fieldDescOf_parseFieldDesc f fd hdesc)
  rw [hjsonb] at hdt
  unfold c8AmendedAt
  rw [hdt, fieldDataType_eval f fd.columnName htag]
  constructor
  · intro hc
    rw [if_pos hc]
  · intro hc
    rw [if_neg hc]
    exact switchDataType_spec (stripStar f.typeStr) (strHasPrefix f.typeStr "*")

/-- Witness for `c8_data_type_table` at the untagged field `Id int`. -/
theorem c8_data_type_table_witness :
    (⟨"Id", "", "", "", "", "int", ""⟩ : GoField).tagDataType = "" ∧
    fieldDescOf ⟨"Id", "", "", "", "", "int", ""⟩ =
      some ⟨"Id", "id", "Id", "", "SERIAL PRIMARY KEY", true⟩ ∧
    (⟨"Id", "id", "Id", "", "SERIAL PRIMARY KEY", true⟩ : Field).jsonb = "" ∧
    c8AmendedAt ⟨"Id", "", "", "", "", "int", ""⟩
      ⟨"Id", "id", "Id", "", "SERIAL PRIMARY KEY", true⟩ :=
  ⟨rfl, by decide, rfl, c8_data_type_table _ _ rfl (by decide) rfl⟩

/-! ### Permit/Filter characterizations (used by C9 and C7) -/

theorem foldl_append_filter (C : Nat × Field → Bool) :
    ∀ (l : List (Nat × Field)) (acc : List Nat),
      l.foldl (fun idx p => if C p then idx ++ [p.1] else idx) acc =
        acc ++ (l.filter C).map Prod.fst := by
  intro l
  induction l with
  | nil => simp
  | cons a t ih =>
      intro acc
      by_cases h : C a <;> simp [h, ih, List.filter_cons]

theorem foldl_append_all :
    ∀ (l : List (Nat × Field)) (acc : List Nat),
      l.foldl (fun idx p => idx ++ [p.1]) acc = acc ++ l.map Prod.fst := by
  intro l
  induction l with
  | nil => simp
  | cons a t ih => intro acc; simp [ih]

theorem anyName_eq_mem (x : String) (names : List String) :
    names.any (fun n => n = x) = decide (x ∈ names) := by
  induction names with
  | nil => simp
  | cons a t ih =>
      by_cases h : a = x
      · simp [h]
      · simp [List.any_cons, h, ih, Ne.symm h]

/-- `Permit` keeps exactly the (index, field) pairs whose field name was
requested, in model order. -/
theorem permitIdx_char (m : Model) (names : List String) :
    permitIdx m names =
      (m.modelFields.enum.filter
        (fun p => names.any (fun n => n = p.2.name))).map Prod.fst := by
  unfold permitIdx
  rw [foldl_append_filter]
  simp

/-- The model fields a permitted-index list denotes. -/
def selectFields (m : Model) (idx : List Nat) : List Field :=
  idx.filterMap (fun i => m.modelFields.get? i)

theorem foldl_idx_filterMap (L : List Field) (B : Changes → Field → Changes) :
    ∀ (idx : List Nat) (out : Changes),
      idx.foldl (fun out i =>
        match L.get? i with
        | none => out
        | some f => B out f) out =
      (idx.filterMap (fun i => L.get? i)).foldl B out := by
  intro idx
  induction idx with
  | nil => simp
  | cons i t ih =>
      intro out
      simp only [List.foldl_cons, List.filterMap_cons]
      cases h : L.get? i with
      | none => simp only [h, ih]
      | some f => simp only [h, ih, List.foldl_cons]

/-- `filterPermits` is the per-field body folded over the permitted
fields. -/
theorem filterPermits_select (mp : Permitted) (input : RawChanges) (out : Changes) :
    filterPermits mp input out =
      (selectFields mp.model mp.permittedFieldsIdx).foldl
        (filterPermitsBody mp.model input) out := by
  unfold filterPermits selectFields
  exact foldl_idx_filterMap _ _ _ _

theorem filterMap_get_of_pairs (L : List Field) :
    ∀ (l : List (Nat × Field)), (∀ p ∈ l, L.get? p.1 = some p.2) →
      (l.map Prod.fst).filterMap (fun i => L.get? i) = l.map Prod.snd := by
  intro l
  induction l with
  | nil => simp
  | cons a t ih =>
      intro h
      simp only [List.map_cons, List.filterMap_cons, h a (by simp)]
      rw [ih (fun p hp => h p (by simp [hp]))]

theorem selectFields_of_filter (m : Model) (C : Nat × Field → Bool) :
    selectFields m ((m.modelFields.enum.filter C).map Prod.fst) =
      (m.modelFields.enum.filter C).map Prod.snd := by
  unfold selectFields
  apply filterMap_get_of_pairs
  intro p hp
  exact List.mem_enum_iff_get?.mp (List.mem_of_mem_filter hp)

theorem permitAllExcept_nil (m : Model) :
    (m.PermitAllExcept []).permittedFieldsIdx = m.modelFields.enum.map Prod.fst := by
  unfold Model.PermitAllExcept
  simp only [List.any_nil, Bool.false_eq_true, if_false]
  rw [foldl_append_all]
  simp

theorem selectFields_all (m : Model) :
    selectFields m (m.modelFields.enum.map Prod.fst) = m.modelFields := by
  unfold selectFields
  rw [filterMap_get_of_pairs _ _ (fun p hp => List.mem_enum_iff_get?.mp hp)]
  exact List.enum_map_snd m.modelFields

/-- A fold of `Filter`'s struct-input body over an empty field map
changes nothing. -/
theorem structIn_fold_nil (fs : List (String × GoVal)) :
    ∀ (out : Changes),
      fs.foldl (fun out p =>
        match alLookup ([] : List (String × Field)) p.1 with
        | none => out
        | some field => alUpdate out field p.2) out = out := by
  induction fs with
  | nil => intro out; rfl
  | cons a t ih => intro out; rw [List.foldl_cons]; exact ih out

/-- With no permitted indices, one `Filter` step changes nothing. -/
theorem filterStep_empty (mp : Permitted) (h : mp.permittedFieldsIdx = [])
    (out : Changes) (input : FilterInput) : filterStep mp out input = out := by
  cases input with
  | raw c => unfold filterStep filterPermits; rw [h]; rfl
  | jsonText o =>
      cases o with
      | none => rfl
      | some c => unfold filterStep filterPermits; rw [h]; rfl
  | structIn fs =>
      unfold filterStep
      simp only [h, List.foldl_nil]
      exact structIn_fold_nil fs out

/-- A permission set with no indices filters every input to nothing. -/
theorem filter_of_empty_idx (mp : Permitted) (h : mp.permittedFieldsIdx = [])
    (inputs : List FilterInput) : mp.Filter inputs = [] := by
  unfold Permitted.Filter
  suffices H : ∀ out : Changes, inputs.foldl (filterStep mp) out = out from H []
  induction inputs with
  | nil => intro out; rfl
  | cons a t ih =>
      intro out
      rw [List.foldl_cons, filterStep_empty mp h out a]
      exact ih out

/-- C9: `Permit` with zero field names yields a permission set with no
fields, so `Filter` over any sequence of inputs returns an empty change
set; `Permit` of a name not present in the model yields the same empty
permission set; appending a name not in the model is a silent no-op;
duplicate requested names are deduplicated (requesting the names twice
changes nothing, and each matching field index is permitted at most
once, i.e. the permitted index list has no duplicates). -/
theorem c9_permit_boundary (m : Model) (names : List String) (bad : String)
    (inputs : List FilterInput)
    (hbad : ∀ f ∈ m.modelFields, f.name ≠ bad) :
    (m.Permit []).permittedFieldsIdx = [] ∧
    (m.Permit []).Filter inputs = [] ∧
    (m.Permit [bad]).permittedFieldsIdx = (m.Permit []).permittedFieldsIdx ∧
    (m.Permit (names ++ [bad])).permittedFieldsIdx = (m.Permit names).permittedFieldsIdx ∧
    (m.Permit (names ++ names)).permittedFieldsIdx = (m.Permit names).permittedFieldsIdx ∧
    (m.Permit names).permittedFieldsIdx.Nodup := by
  have hmem : ∀ p : Nat × Field, p ∈ m.modelFields.enum → p.2 ∈ m.modelFields := by
    intro p hp
    exact List.get?_mem (List.mem_enum_iff_get?.mp hp)
  have hempty : (m.Permit []).permittedFieldsIdx = [] := by
    unfold Model.Permit
    rw [permitIdx_char]
    simp
  refine ⟨hempty, filter_of_empty_idx _ hempty inputs, ?_, ?_, ?_, ?_⟩
  · unfold Model.Permit
    rw [permitIdx_char, permitIdx_char]
    rw [@List.filter_congr _ _ (fun _ => false) _ ?_]
    · simp
    · intro p hp
      have hb : p.2.name ≠ bad := hbad p.2 (hmem p hp)
      simp [anyName_eq_mem, Ne.symm hb]
  · unfold Model.Permit
    rw [permitIdx_char, permitIdx_char]
    rw [@List.filter_congr _ _ (fun p => names.any (fun n => n = p.2.name)) _ ?_]
    intro p hp
    have hb : p.2.name ≠ bad := hbad p.2 (hmem p hp)
    simp only [anyName_eq_mem]
    rw [decide_eq_decide]
    simp [List.mem_append, hb]
  · unfold Model.Permit
    rw [permitIdx_char, permitIdx_char]
    rw [@List.filter_congr _ _ (fun p => names.any (fun n => n = p.2.name)) _ ?_]
    intro p _
    simp only [anyName_eq_mem]
    rw [decide_eq_decide]
    simp [List.mem_append]
  · unfold Model.Permit
    rw [permitIdx_char]
    exact (List.nodup_enum_map_fst m.modelFields).sublist
      ((List.filter_sublist _).map Prod.fst)

/-- Witness for `c9_permit_boundary` at the `Post` model, requesting the
duplicate list `["Name","Name"]`, the foreign name `"Nope"`, and one map
input. -/
theorem c9_permit_boundary_witness :
    (∀ f ∈ postModel.modelFields, f.name ≠ "Nope") ∧
    ((postModel.Permit []).permittedFieldsIdx = [] ∧
     (postModel.Permit []).Filter [FilterInput.raw [("Name", GoVal.vStr "x")]] = [] ∧
     (postModel.Permit ["Nope"]).permittedFieldsIdx =
       (postModel.Permit []).permittedFieldsIdx ∧
     (postModel.Permit (["Name", "Name"] ++ ["Nope"])).permittedFieldsIdx =
       (postModel.Permit ["Name", "Name"]).permittedFieldsIdx ∧
     (postModel.Permit (["Name", "Name"] ++ ["Name", "Name"])).permittedFieldsIdx =
       (postModel.Permit ["Name", "Name"]).permittedFieldsIdx ∧
     (postModel.Permit ["Name", "Name"]).permittedFieldsIdx.Nodup) :=
  ⟨by decide,
   c9_permit_boundary postModel ["Name", "Name"] "Nope"
     [FilterInput.raw [("Name", GoVal.vStr "x")]] (by decide)⟩

/-! ### C7: `Model.Changes` versus the permitted `Filter` path -/

/-- Modelled from the claim's words with the coercion step removed:
per-field lookup by JSON name, the present raw value stored verbatim.
(`Model.Changes` in the code does exactly this.) -/
def changesVerbatim (m : Model) (input : RawChanges) : Changes :=
  m.modelFields.foldl
    (fun out field =>
      match alLookup input field.jsonName with
      | none => out
      | some v => alUpdate out field v) []

/-- Modelled from the claim's words: the `Changes` path as C7 describes
it — the same per-field lookup and serialization-round-trip coercion as
the permitted `Filter` path, with no permission filter, a value that
cannot be coerced being silently dropped. -/
def changesClaim (m : Model) (input : RawChanges) : Changes :=
  m.modelFields.foldl
    (fun out field =>
      match alLookup input field.jsonName with
      | none => out
      | some v =>
          match structFieldByName m field.name with
          | none => out
          | some f =>
              match unmarshalInto f.typeStr v with
              | none => out
              | some x => alUpdate out field x) []

/-- A one-field model `struct { Age int `json:"age"` }`. -/
def ageStruct : GoStructDef :=
  { name := "Item", tableNameTag := none, tableNameMethod := none
    fields := [⟨"Age", "", "age", "", "", "int", ""⟩] }

def ageModel : Model := NewModel ageStruct

/-- C7 counterexample: for the raw input `{"age": "x"}` against an
`Age int` field, `Model.Changes` stores the uncoercible string verbatim
while the claim's coerce-and-drop description yields the empty change
set — so `Changes` does not perform the Filter path's coercion. -/
theorem c7_counterexample :
    ageModel.Changes [("age", GoVal.vStr "x")] =
      [(⟨"Age", "age", "age", "", "bigint DEFAULT 0 NOT NULL", true⟩, GoVal.vStr "x")] ∧
    changesClaim ageModel [("age", GoVal.vStr "x")] = [] ∧
    ageModel.Changes [("age", GoVal.vStr "x")] ≠
      changesClaim ageModel [("age", GoVal.vStr "x")] := by
  refine ⟨by decide, by decide, by decide⟩

/-- C7 (amended): `Model.Changes` performs the same per-field lookup by
JSON name as the permitted `Filter` path but with no permission filter
and no coercion — present values are stored verbatim and nothing is
dropped; it is the `Filter` path over all fields
(`PermitAllExcept()`) that coerces each present value via the
serialization round trip and silently drops uncoercible ones. -/
theorem c7_changes_vs_filter (m : Model) (input : RawChanges) :
    m.Changes input = changesVerbatim m input ∧
    (m.PermitAllExcept []).Filter [FilterInput.raw input] = changesClaim m input := by
  constructor
  · rfl
  · show (List.foldl (filterStep (m.PermitAllExcept [])) [] [FilterInput.raw input]) = _
    rw [List.foldl_cons, List.foldl_nil]
    show filterPermits (m.PermitAllExcept []) input [] = _
    rw [filterPermits_select]
    rw [permitAllExcept_nil]
    show (selectFields m (m.modelFields.enum.map Prod.fst)).foldl
      (filterPermitsBody m input) [] = _
    rw [selectFields_all]
    unfold changesClaim
    apply List.foldl_ext
    intro out field _
    unfold filterPermitsBody
    cases alLookup input field.jsonName with
    | none => rfl
    | some v =>
        cases hs : m.structFields with
        | none => simp [structFieldByName, hs]
        | some fs => simp [structFieldByName, hs]

/-! ### Row scanning (`sqlWithValues.scan`, SQL-execution file 111–165)

A scanned record is an association list from struct-field name to value.
The external driver's `Scan` fills one destination per non-document
column in model-field order, and one raw JSON object per document
column; a row is therefore modelled as the list of flat column values
plus one decoded key→raw-value map per jsonb column (the `jsonbRaw`
destinations).  `scan` then walks every document-routed field for each
jsonb map, decoding its own sub-key; `json.Unmarshal` failures are
`Except.error`, as in the source (`return err`). -/

/-- The record `reflect.New(structType).Elem()` starts from: every
declared field at its zero value. -/
def zeroRecord (m : Model) : List (String × GoVal) :=
  (m.structFields.getD []).map (fun f => (f.name, zeroOf f.typeStr))

/-- The error `json.Unmarshal` reports for a document sub-value that
does not fit the field's type (the exact message is the JSON library's;
only its presence matters). -/
def scanErrMsg (field : Field) : String :=
  "json: cannot unmarshal value into field " ++ field.name

/-- One iteration of `scan`'s inner loop (lines 143–163): skip flat
fields, skip a missing sub-key, decode a present sub-value into the
field and fail the scan when the decode fails. -/
def scanJsonbField (m : Model) (jsonb : List (String × GoVal))
    (r : List (String × GoVal)) (field : Field) :
    Except String (List (String × GoVal)) :=
  if field.jsonb = "" then Except.ok r
  else
    match alLookup jsonb field.columnName with
    | none => Except.ok r
    | some val =>
        match structFieldByName m field.name with
        | none => Except.ok r
        | some f =>
            match unmarshalInto f.typeStr val with
            | none => Except.error (scanErrMsg field)
            | some x => Except.ok (alUpdate r field.name x)

/-- Error-propagating left fold (the `return err` pattern). -/
def foldExcept {α ρ : Type} (f : ρ → α → Except String ρ) :
    List α → ρ → Except String ρ
  | [], r => Except.ok r
  | a :: t, r =>
      match f r a with
      | Except.error e => Except.error e
      | Except.ok r2 => foldExcept f t r2

/-- `sqlWithValues.scan` for a destination of the model's struct type:
driver-scanned flat values are written to the non-document fields in
order, then every document-routed field tries to decode its sub-key
from each jsonb column's raw map. -/
def scan (m : Model) (flat : List GoVal)
    (jsonbVals : List (List (String × GoVal))) :
    Except String (List (String × GoVal)) :=
  let flatFields := m.modelFields.filter (fun f => f.jsonb = "")
  let rec1 := (flatFields.zip flat).foldl
    (fun r p => alUpdate r p.1.name p.2) (zeroRecord m)
  foldExcept
    (fun r jsonb => foldExcept (fun r field => scanJsonbField m jsonb r field)
      m.modelFields r)
    jsonbVals rec1

/-! ### Target-shape dispatch (`sqlWithValues.Query`, lines 72–108) -/

/-- `ErrInvalidTarget` from the SQL-execution file. -/
def ErrInvalidTarget : String :=
  "target must be pointer of a struct or pointer of a slice of structs"

/-- The reflection shape of a `Query` destination. -/
inductive TargetShape where
  | notPtr : TargetShape
  | ptrStruct : TargetShape
  | ptrSlice : TargetShape
  | ptrMap : TargetShape
  | ptrOther : TargetShape
  deriving DecidableEq

/-- The shape test `Query` performs before any I/O: a non-pointer fails;
a pointer to a struct takes the single-row path; a pointer to a slice
takes the many-row path; every other pointee kind — including a map —
fails with `ErrInvalidTarget`. -/
def queryShapeCheck : TargetShape → Except String Bool
  | TargetShape.notPtr => Except.error ErrInvalidTarget
  | TargetShape.ptrStruct => Except.ok false
  | TargetShape.ptrSlice => Except.ok true
  | TargetShape.ptrMap => Except.error ErrInvalidTarget
  | TargetShape.ptrOther => Except.error ErrInvalidTarget

/-- One result row as the driver hands it to `scan`. -/
def RowData : Type := List GoVal × List (List (String × GoVal))

/-- `Query`'s many-row loop (lines 99–106): scan each row into a fresh
zero record and `reflect.Append` it to the destination slice's current
contents. -/
def queryRows (m : Model) (dest : List (List (String × GoVal))) :
    List RowData → Except String (List (List (String × GoVal)))
  | [] => Except.ok dest
  | r :: rest =>
      match scan m r.1 r.2 with
      | Except.error e => Except.error e
      | Except.ok v => queryRows m (dest ++ [v]) rest

/-- Scanning each row independently (for stating C10). -/
def scanAll (m : Model) : List RowData → Except String (List (List (String × GoVal)))
  | [] => Except.ok []
  | r :: rest =>
      match scan m r.1 r.2 with
      | Except.error e => Except.error e
      | Except.ok v =>
          match scanAll m rest with
          | Except.error e => Except.error e
          | Except.ok vs => Except.ok (v :: vs)

deriving instance DecidableEq for Except

/-! ### C1: document sub-field decode failures during scan -/

/-- Whether one document-routed field's sub-key decodes (or is absent /
not document-routed, which cannot fail). -/
def fieldDecodeOk (m : Model) (jsonb : List (String × GoVal)) (field : Field) : Bool :=
  if field.jsonb = "" then true
  else
    match alLookup jsonb field.columnName with
    | none => true
    | some val =>
        match structFieldByName m field.name with
        | none => true
        | some f => (unmarshalInto f.typeStr val).isSome

/-- The record update one inner-loop iteration performs when it does not
fail. -/
def scanStepRec (m : Model) (jsonb : List (String × GoVal))
    (r : List (String × GoVal)) (field : Field) : List (String × GoVal) :=
  if field.jsonb = "" then r
  else
    match alLookup jsonb field.columnName with
    | none => r
    | some val =>
        match structFieldByName m field.name with
        | none => r
        | some f =>
            match unmarshalInto f.typeStr val with
            | none => r
            | some x => alUpdate r field.name x

theorem scanJsonbField_char (m : Model) (jsonb : List (String × GoVal))
    (r : List (String × GoVal)) (field : Field) :
    scanJsonbField m jsonb r field =
      if fieldDecodeOk m jsonb field = true
      then Except.ok (scanStepRec m jsonb r field)
      else Except.error (scanErrMsg field) := by
  unfold scanJsonbField fieldDecodeOk scanStepRec
  by_cases hj : field.jsonb = ""
  · simp [hj]
  · simp only [hj, if_false]
    cases hl : alLookup jsonb field.columnName with
    | none => simp
    | some val =>
        cases hs : structFieldByName m field.name with
        | none => simp
        | some f =>
            cases hu : unmarshalInto f.typeStr val with
            | none => simp [hu]
            | some x => simp [hu]

theorem foldExcept_scan_char (m : Model) (jsonb : List (String × GoVal)) :
    ∀ (fields : List Field) (r : List (String × GoVal)),
      (fields.all (fieldDecodeOk m jsonb) = true →
        foldExcept (fun r field => scanJsonbField m jsonb r field) fields r =
          Except.ok (fields.foldl (scanStepRec m jsonb) r)) ∧
      (fields.all (fieldDecodeOk m jsonb) = false →
        (foldExcept (fun r field => scanJsonbField m jsonb r field) fields r).isOk
          = false) := by
  intro fields
  induction fields with
  | nil =>
      intro r
      constructor
      · intro _; rfl
      · intro h; simp at h
  | cons f t ih =>
      intro r
      constructor
      · intro hall
        rw [List.all_cons] at hall
        have h1 : fieldDecodeOk m jsonb f = true := by
          cases hx : fieldDecodeOk m jsonb f
          · rw [hx] at hall; simp at hall
          · rfl
        have h2 : t.all (fieldDecodeOk m jsonb) = true := by
          rw [h1] at hall; simpa using hall
        unfold foldExcept
        rw [scanJsonbField_char, if_pos h1]
        rw [List.foldl_cons]
        exact (ih (scanStepRec m jsonb r f)).1 h2
      · intro hall
        rw [List.all_cons] at hall
        unfold foldExcept
        rw [scanJsonbField_char]
        cases hx : fieldDecodeOk m jsonb f
        · rfl
        · rw [if_pos rfl]
          rw [hx] at hall
          simp only [Bool.true_and] at hall
          exact (ih (scanStepRec m jsonb r f)).2 hall

theorem foldExcept_outer_char (m : Model) :
    ∀ (jsonbVals : List (List (String × GoVal))) (r : List (String × GoVal)),
      (jsonbVals.all (fun j => m.modelFields.all (fieldDecodeOk m j)) = true →
        foldExcept
          (fun r jsonb => foldExcept (fun r field => scanJsonbField m jsonb r field)
            m.modelFields r) jsonbVals r =
          Except.ok (jsonbVals.foldl
            (fun r j => m.modelFields.foldl (scanStepRec m j) r) r)) ∧
      (jsonbVals.all (fun j => m.modelFields.all (fieldDecodeOk m j)) = false →
        (foldExcept
          (fun r jsonb => foldExcept (fun r field => scanJsonbField m jsonb r field)
            m.modelFields r) jsonbVals r).isOk = false) := by
  intro jsonbVals
  induction jsonbVals with
  | nil =>
      intro r
      constructor
      · intro _; rfl
      · intro h; simp at h
  | cons j t ih =>
      intro r
      constructor
      · intro hall
        rw [List.all_cons] at hall
        have h1 : m.modelFields.all (fieldDecodeOk m j) = true := by
          cases hx : m.modelFields.all (fieldDecodeOk m j)
          · rw [hx] at hall; simp at hall
          · rfl
        have h2 : t.all (fun j => m.modelFields.all (fieldDecodeOk m j)) = true := by
          rw [h1] at hall; simpa using hall
        unfold foldExcept
        rw [(foldExcept_scan_char m j m.modelFields r).1 h1]
        rw [List.foldl_cons]
        exact (ih _).1 h2
      · intro hall
        rw [List.all_cons] at hall
        unfold foldExcept
        cases hx : m.modelFields.all (fieldDecodeOk m j)
        · have herr := (foldExcept_scan_char m j m.modelFields r).2 hx
          cases he : foldExcept (fun r field => scanJsonbField m j r field) m.modelFields r with
          | error e => rfl
          | ok r2 => rw [he] at herr; exact Bool.noConfusion herr
        · rw [(foldExcept_scan_char m j m.modelFields r).1 hx]
          rw [hx] at hall
          simp only [Bool.true_and] at hall
          exact (ih _).2 hall

theorem alLookup_alUpdate_ne {κ α : Type} [DecidableEq κ]
    (k : κ) (v : α) (n : κ) (h : k ≠ n) :
    ∀ (l : List (κ × α)), alLookup (alUpdate l k v) n = alLookup l n := by
  intro l
  induction l with
  | nil => simp [alUpdate, alLookup, h]
  | cons a t ih =>
      by_cases ha : a.1 = k
      · unfold alUpdate
        rw [if_pos ha]
        unfold alLookup
        rw [if_neg (ha ▸ h), if_neg (by rw [ha]; exact h)]
      · unfold alUpdate
        rw [if_neg ha]
        unfold alLookup
        by_cases hn : a.1 = n
        · rw [if_pos hn, if_pos hn]
        · rw [if_neg hn, if_neg hn]
          exact ih

theorem scanStepRec_preserve (m : Model) (jsonb : List (String × GoVal))
    (r : List (String × GoVal)) (g : Field) (n : String)
    (h : g.name ≠ n ∨ alLookup jsonb g.columnName = none ∨ g.jsonb = "") :
    alLookup (scanStepRec m jsonb r g) n = alLookup r n := by
  unfold scanStepRec
  by_cases hj : g.jsonb = ""
  · rw [if_pos hj]
  · rw [if_neg hj]
    cases hl : alLookup jsonb g.columnName with
    | none => rfl
    | some val =>
        simp only [hl]
        cases hs : structFieldByName m g.name with
        | none => rfl
        | some f =>
            simp only [hs]
            cases hu : unmarshalInto f.typeStr val with
            | none => rfl
            | some x =>
                simp only [hu]
                have hn : g.name ≠ n := by
                  rcases h with h | h | h
                  · exact h
                  · rw [hl] at h; exact absurd h (by simp)
                  · exact absurd h hj
                exact alLookup_alUpdate_ne g.name x n hn r

theorem foldl_stepRec_preserve (m : Model) (jsonb : List (String × GoVal)) (n : String) :
    ∀ (fields : List Field) (r : List (String × GoVal)),
      (∀ g ∈ fields, g.name ≠ n ∨ alLookup jsonb g.columnName = none ∨ g.jsonb = "") →
      alLookup (fields.foldl (scanStepRec m jsonb) r) n = alLookup r n := by
  intro fields
  induction fields with
  | nil => intro r _; rfl
  | cons g t ih =>
      intro r h
      rw [List.foldl_cons, ih _ (fun x hx => h x (by simp [hx]))]
      exact scanStepRec_preserve m jsonb r g n (h g (by simp))

theorem foldl_outer_preserve (m : Model) (n : String) :
    ∀ (jsonbVals : List (List (String × GoVal))) (r : List (String × GoVal)),
      (∀ j ∈ jsonbVals, ∀ g ∈ m.modelFields,
        g.name ≠ n ∨ alLookup j g.columnName = none ∨ g.jsonb = "") →
      alLookup (jsonbVals.foldl
        (fun r j => m.modelFields.foldl (scanStepRec m j) r) r) n = alLookup r n := by
  intro jsonbVals
  induction jsonbVals with
  | nil => intro r _; rfl
  | cons j t ih =>
      intro r h
      rw [List.foldl_cons, ih _ (fun x hx => h x (by simp [hx]))]
      exact foldl_stepRec_preserve m j n m.modelFields r (h j (by simp))

theorem foldl_zip_preserve (n : String) :
    ∀ (zipped : List (Field × GoVal)) (r : List (String × GoVal)),
      (∀ p ∈ zipped, p.1.name ≠ n) →
      alLookup (zipped.foldl (fun r p => alUpdate r p.1.name p.2) r) n = alLookup r n := by
  intro zipped
  induction zipped with
  | nil => intro r _; rfl
  | cons p t ih =>
      intro r h
      rw [List.foldl_cons, ih _ (fun x hx => h x (by simp [hx]))]
      exact alLookup_alUpdate_ne p.1.name p.2 n (h p (by simp)) r

/-- C1 (amended): a row scan into a record of the model's type succeeds
iff every document sub-key present in the scanned document columns
decodes into its field's declared type — a sub-value that cannot be
decoded makes the whole scan return the decode error (it is not
skipped); a missing sub-key, however, is skipped and leaves its field at
the zero value (stated for a document field whose struct-field name is
not shared with another field). -/
theorem c1_scan_decode (m : Model) (flat : List GoVal)
    (jsonbVals : List (List (String × GoVal))) :
    ((scan m flat jsonbVals).isOk = true ↔
      ∀ jsonb ∈ jsonbVals, ∀ field ∈ m.modelFields,
        fieldDecodeOk m jsonb field = true) ∧
    (∀ r field, scan m flat jsonbVals = Except.ok r → field ∈ m.modelFields →
      field.jsonb ≠ "" →
      (∀ jsonb ∈ jsonbVals, alLookup jsonb field.columnName = none) →
      (∀ g ∈ m.modelFields, g.name = field.name → g = field) →
      alLookup r field.name = alLookup (zeroRecord m) field.name) := by
  constructor
  · unfold scan
    cases hall : jsonbVals.all (fun j => m.modelFields.all (fieldDecodeOk m j)) with
    | true =>
        rw [(foldExcept_outer_char m jsonbVals _).1 hall]
        constructor
        · intro _ j hj field hf
          exact List.all_eq_true.mp (List.all_eq_true.mp hall j hj) field hf
        · intro _; rfl
    | false =>
        have h2 := (foldExcept_outer_char m jsonbVals
          (((m.modelFields.filter (fun f => f.jsonb = "")).zip flat).foldl
            (fun r p => alUpdate r p.1.name p.2) (zeroRecord m))).2 hall
        rw [h2]
        constructor
        · intro hcon; exact absurd hcon (by simp)
        · intro hforall
          exfalso
          have hT : jsonbVals.all (fun j => m.modelFields.all (fieldDecodeOk m j)) = true := by
            rw [List.all_eq_true]
            intro j hj
            rw [List.all_eq_true]
            intro f hf
            exact hforall j hj f hf
          rw [hT] at hall
          exact Bool.noConfusion hall
  · intro r field hscan hf hjne hkeys huniq
    unfold scan at hscan
    cases hall : jsonbVals.all (fun j => m.modelFields.all (fieldDecodeOk m j)) with
    | false =>
        have h2 := (foldExcept_outer_char m jsonbVals
          (((m.modelFields.filter (fun f => f.jsonb = "")).zip flat).foldl
            (fun r p => alUpdate r p.1.name p.2) (zeroRecord m))).2 hall
        rw [hscan] at h2
        exact Bool.noConfusion h2
    | true =>
        rw [(foldExcept_outer_char m jsonbVals _).1 hall] at hscan
        injection hscan with hr
        subst hr
        rw [foldl_outer_preserve m field.name jsonbVals _ ?_]
        · rw [foldl_zip_preserve field.name _ _ ?_]
          intro p hp
          obtain ⟨a, b⟩ := p
          have hmem := (List.of_mem_zip hp).1
          have ha : a ∈ m.modelFields := List.mem_of_mem_filter hmem
          have haj : a.jsonb = "" := by
            have := List.of_mem_filter hmem
            simpa using this
          intro he
          exact hjne (huniq a ha he ▸ haj)
        · intro j hj g hg
          by_cases hn : g.name = field.name
          · right; left
            rw [huniq g hg hn]
            exact hkeys j hj
          · left; exact hn

/-- A model with a flat `Id int` and a document field `Age int` routed
to column `meta` (sub-key `age`). -/
def scanStruct : GoStructDef :=
  { name := "Event", tableNameTag := none, tableNameMethod := none
    fields := [⟨"Id", "", "", "", "", "int", ""⟩,
               ⟨"Age", "", "", "meta", "", "int", ""⟩] }

def scanModel : Model := NewModel scanStruct

/-- C1 counterexample: when the stored document value for sub-key `age`
is the string `"oops"` (text where integer expected), the whole row scan
returns the decode error — it does not succeed with the field left at
its zero value, contradicting the claim. -/
theorem c1_counterexample :
    scan scanModel [GoVal.vInt 1] [[("age", GoVal.vStr "oops")]] =
      Except.error "json: cannot unmarshal value into field Age" ∧
    (scan scanModel [GoVal.vInt 1] [[("age", GoVal.vStr "oops")]]).isOk = false := by
  refine ⟨by decide, by decide⟩

/-- Witness for `c1_scan_decode` at a row whose document column lacks
the `age` sub-key: the scan succeeds and leaves `Age` at zero. -/
theorem c1_scan_decode_witness :
    scan scanModel [GoVal.vInt 1] [[("other", GoVal.vInt 2)]] =
      Except.ok [("Id", GoVal.vInt 1), ("Age", GoVal.vInt 0)] ∧
    alLookup [("Id", GoVal.vInt 1), ("Age", GoVal.vInt 0)] "Age" =
      alLookup (zeroRecord scanModel) "Age" :=
  ⟨by decide,
   (c1_scan_decode scanModel [GoVal.vInt 1] [[("other", GoVal.vInt 2)]]).2
     [("Id", GoVal.vInt 1), ("Age", GoVal.vInt 0)]
     ⟨"Age", "age", "Age", "meta", "", true⟩
     (by decide) (by decide) (by decide) (by decide) (by decide)⟩

/-- C3 (code evaluated at the failing input): `Query` rejects a
pointer-to-map destination with `ErrInvalidTarget` before any I/O,
although the repository's own `Select` documentation and CRUD tests use
map destinations. -/
theorem c3_map_target_rejected :
    queryShapeCheck TargetShape.ptrMap = Except.error ErrInvalidTarget := rfl

/-- C10: a successful `Query` into a slice destination appends exactly
one scanned record per result row, in result order, after the slice's
existing elements, which are preserved unchanged — the slice is never
cleared before appending. -/
theorem c10_query_appends (m : Model) :
    ∀ (rows : List RowData) (dest out : List (List (String × GoVal))),
      queryRows m dest rows = Except.ok out →
      ∃ scanned, scanAll m rows = Except.ok scanned ∧
        out = dest ++ scanned ∧ scanned.length = rows.length := by
  intro rows
  induction rows with
  | nil =>
      intro dest out h
      injection h with h
      exact ⟨[], rfl, by simp [← h], rfl⟩
  | cons r t ih =>
      intro dest out h
      unfold queryRows at h
      cases hs : scan m r.1 r.2 with
      | error e => rw [hs] at h; exact Except.noConfusion h
      | ok v =>
          rw [hs] at h
          obtain ⟨scanned, hA, hout, hlen⟩ := ih (dest ++ [v]) out h
          refine ⟨v :: scanned, ?_, ?_, by simp [hlen]⟩
          · unfold scanAll
            rw [hs, hA]
          · rw [hout]
            simp

/-- Witness for `c10_query_appends`: one pre-existing element, one
result row; the old element keeps its position. -/
theorem c10_query_appends_witness :
    queryRows scanModel [[("Id", GoVal.vInt 9), ("Age", GoVal.vInt 9)]]
        [([GoVal.vInt 1], [[("age", GoVal.vInt 5)]])] =
      Except.ok [[("Id", GoVal.vInt 9), ("Age", GoVal.vInt 9)],
                 [("Id", GoVal.vInt 1), ("Age", GoVal.vInt 5)]] ∧
    ∃ scanned,
      scanAll scanModel [([GoVal.vInt 1], [[("age", GoVal.vInt 5)]])] =
        Except.ok scanned ∧
      [[("Id", GoVal.vInt 9), ("Age", GoVal.vInt 9)],
       [("Id", GoVal.vInt 1), ("Age", GoVal.vInt 5)]] =
        [[("Id", GoVal.vInt 9), ("Age", GoVal.vInt 9)]] ++ scanned ∧
      scanned.length = [([GoVal.vInt 1], [[("age", GoVal.vInt 5)]])].length :=
  ⟨by decide, c10_query_appends scanModel _ _ _ (by decide)⟩

/-! ### Transaction coordinator (`sqlWithValues.execute`, lines 220–274)

The coordinator is modelled as a function from the requested options and
the outcomes the driver/hooks would produce to the trace of performed
actions plus the returned error.  A phase (before hook, main statement,
after hook) either succeeds, returns an error, or panics; `BeginTx` and
`Commit` either succeed or return an error.  The Go `defer` recovers a
panic, attempts a rollback, and returns normally with whatever `err`
held when the panic fired (`nil` in every reachable case), so a panic
inside the transaction path is swallowed; in the direct path there is no
`recover`, so a panic propagates. -/

/-- Outcome of running one phase. -/
inductive PhaseRes where
  | ok : PhaseRes
  | err : String → PhaseRes
  | panics : PhaseRes
  deriving DecidableEq

/-- `TxOptions`: an isolation level and optional before/after hooks,
each hook carrying the outcome it would produce on the open
transaction. -/
structure TxOptsM where
  isolationLevel : String
  before : Option PhaseRes
  after : Option PhaseRes
  deriving DecidableEq

/-- The observable driver actions. -/
inductive Action where
  | beginTx : Action
  | runBefore : Action
  | runMain : Action
  | runAfter : Action
  | commitTx : Action
  | rollbackTx : Action
  deriving DecidableEq

/-- What `execute` returns to its caller: a normal return with an
optional error, or a propagated panic. -/
inductive ExecOutcome where
  | ret : Option String → ExecOutcome
  | panicked : ExecOutcome
  deriving DecidableEq

/-- The direct path (lines 225–232): the statement runs against the
ambient connection with no transaction machinery; an error is returned,
a panic propagates. -/
def directRun (mainRes : PhaseRes) : List Action × ExecOutcome :=
  ([Action.runMain],
   match mainRes with
   | PhaseRes.ok => ExecOutcome.ret none
   | PhaseRes.err e => ExecOutcome.ret (some e)
   | PhaseRes.panics => ExecOutcome.panicked)

/-- `sqlWithValues.execute` (both `actionQueryRow` and `actionExecute`:
the action only selects which driver call `runMain` stands for). -/
def execute (txOpts : Option TxOptsM) (beginRes : Option String)
    (mainRes : PhaseRes) (commitRes : Option String) : List Action × ExecOutcome :=
  match txOpts with
  | none => directRun mainRes
  | some o =>
      if o.before = none ∧ o.after = none then directRun mainRes
      else
        match beginRes with
        | some e => ([Action.beginTx], ExecOutcome.ret (some e))
        | none =>
            match o.before with
            | some (PhaseRes.err e) =>
                ([Action.beginTx, Action.runBefore, Action.rollbackTx],
                 ExecOutcome.ret (some e))
            | some PhaseRes.panics =>
                ([Action.beginTx, Action.runBefore, Action.rollbackTx],
                 ExecOutcome.ret none)
            | hb =>
                let pre := Action.beginTx ::
                  (match hb with | none => [] | some _ => [Action.runBefore])
                match mainRes with
                | PhaseRes.err e =>
                    (pre ++ [Action.runMain, Action.rollbackTx],
                     ExecOutcome.ret (some e))
                | PhaseRes.panics =>
                    (pre ++ [Action.runMain, Action.rollbackTx],
                     ExecOutcome.ret none)
                | PhaseRes.ok =>
                    match o.after with
                    | some (PhaseRes.err e) =>
                        (pre ++ [Action.runMain, Action.runAfter, Action.rollbackTx],
                         ExecOutcome.ret (some e))
                    | some PhaseRes.panics =>
                        (pre ++ [Action.runMain, Action.runAfter, Action.rollbackTx],
                         ExecOutcome.ret none)
                    | ha =>
                        (pre ++ [Action.runMain] ++
                          (match ha with | none => [] | some _ => [Action.runAfter]) ++
                          [Action.commitTx],
                         ExecOutcome.ret commitRes)

/-- A hook slot that cannot fail: absent, or present and succeeding. -/
def hookOk : Option PhaseRes → Prop
  | none => True
  | some PhaseRes.ok => True
  | some (PhaseRes.err _) => False
  | some PhaseRes.panics => False

/-- The trace a hook slot contributes when it runs to completion. -/
def hookTrace (h : Option PhaseRes) (a : Action) : List Action :=
  match h with
  | none => []
  | some _ => [a]

/-- C6 counterexample: with an isolation level requested but no hooks,
`execute` bypasses the transaction entirely (no `BEGIN`), and a
panicking before-hook is rolled back but then swallowed — `execute`
returns success (`nil` error) instead of propagating the panic or an
error, contradicting the claim that a transaction is begun whenever an
isolation level is requested and that the triggering fault is
surfaced. -/
theorem c6_counterexample :
    execute (some ⟨"serializable", none, none⟩) none PhaseRes.ok none =
      ([Action.runMain], ExecOutcome.ret none) ∧
    Action.beginTx ∉ (execute (some ⟨"serializable", none, none⟩) none PhaseRes.ok none).1 ∧
    execute (some ⟨"", some PhaseRes.panics, none⟩) none PhaseRes.ok none =
      ([Action.beginTx, Action.runBefore, Action.rollbackTx], ExecOutcome.ret none) := by
  refine ⟨by decide, by decide, by decide⟩

/-- C6 (amended): the transaction machinery is used iff a before/after
hook is present — an isolation level alone (or no options) runs the
statement directly against the ambient connection; in the transaction
path, a `BeginTx` error is returned without rollback; the before hook,
main statement and after hook run in that order; an error in any phase
triggers a rollback and is surfaced to the caller (never a rollback
error); a panic in any phase triggers a rollback but is recovered and
swallowed, the call returning a `nil` error; commit happens iff every
phase succeeds, and the commit error is what the caller sees. -/
theorem c6_execute_transactions (o : Option TxOptsM) (b : Option String) (mr : PhaseRes)
    (cr : Option String) :
    (execute none b mr cr = directRun mr) ∧
    (∀ t, o = some t → t.before = none → t.after = none →
      execute o b mr cr = directRun mr) ∧
    (∀ t e, o = some t → ¬(t.before = none ∧ t.after = none) → b = some e →
      execute o b mr cr = ([Action.beginTx], ExecOutcome.ret (some e))) ∧
    (∀ t e, o = some t → t.before = some (PhaseRes.err e) → b = none →
      execute o b mr cr =
        ([Action.beginTx, Action.runBefore, Action.rollbackTx],
         ExecOutcome.ret (some e))) ∧
    (∀ t, o = some t → t.before = some PhaseRes.panics → b = none →
      execute o b mr cr =
        ([Action.beginTx, Action.runBefore, Action.rollbackTx],
         ExecOutcome.ret none)) ∧
    (∀ t e, o = some t → ¬(t.before = none ∧ t.after = none) → hookOk t.before →
      b = none → mr = PhaseRes.err e →
      execute o b mr cr =
        (Action.beginTx :: hookTrace t.before Action.runBefore ++
          [Action.runMain, Action.rollbackTx], ExecOutcome.ret (some e))) ∧
    (∀ t, o = some t → ¬(t.before = none ∧ t.after = none) → hookOk t.before →
      b = none → mr = PhaseRes.panics →
      execute o b mr cr =
        (Action.beginTx :: hookTrace t.before Action.runBefore ++
          [Action.runMain, Action.rollbackTx], ExecOutcome.ret none)) ∧
    (∀ t e, o = some t → hookOk t.before → t.after = some (PhaseRes.err e) →
      b = none → mr = PhaseRes.ok →
      execute o b mr cr =
        (Action.beginTx :: hookTrace t.before Action.runBefore ++
          [Action.runMain, Action.runAfter, Action.rollbackTx],
         ExecOutcome.ret (some e))) ∧
    (∀ t, o = some t → hookOk t.before → t.after = some PhaseRes.panics →
      b = none → mr = PhaseRes.ok →
      execute o b mr cr =
        (Action.beginTx :: hookTrace t.before Action.runBefore ++
          [Action.runMain, Action.runAfter, Action.rollbackTx],
         ExecOutcome.ret none)) ∧
    (∀ t, o = some t → ¬(t.before = none ∧ t.after = none) → hookOk t.before →
      hookOk t.after → b = none → mr = PhaseRes.ok →
      execute o b mr cr =
        (Action.beginTx :: hookTrace t.before Action.runBefore ++
          [Action.runMain] ++ hookTrace t.after Action.runAfter ++
          [Action.commitTx], ExecOutcome.ret cr)) := by
  refine ⟨rfl, ?_, ?_, ?_, ?_, ?_, ?_, ?_, ?_, ?_⟩
  · rintro ⟨iso, hb, ha⟩ rfl h1 h2
    simp only at h1 h2
    subst h1; subst h2
    simp [execute]
  · rintro ⟨iso, hb, ha⟩ e rfl hne rfl
    simp only [execute, if_neg hne]
  · rintro ⟨iso, hb, ha⟩ e rfl hbe rfl
    simp only at hbe
    subst hbe
    simp only [execute]
    rw [if_neg (by rintro ⟨h1, _⟩; exact Option.noConfusion h1)]
  · rintro ⟨iso, hb, ha⟩ rfl hbe rfl
    simp only at hbe
    subst hbe
    simp only [execute]
    rw [if_neg (by rintro ⟨h1, _⟩; exact Option.noConfusion h1)]
  · rintro ⟨iso, hb, ha⟩ e rfl hne hok rfl rfl
    simp only at hok ⊢
    match hb, hne with
    | none, hne =>
        have hna : ha ≠ none := fun h => hne ⟨rfl, h⟩
        simp [execute, hookTrace, hna]
    | some PhaseRes.ok, hne => simp [execute, hookTrace]
    | some (PhaseRes.err e2), _ => exact absurd hok (by simp [hookOk])
    | some PhaseRes.panics, _ => exact absurd hok (by simp [hookOk])
  · rintro ⟨iso, hb, ha⟩ rfl hne hok rfl rfl
    simp only at hok ⊢
    match hb, hne with
    | none, hne =>
        have hna : ha ≠ none := fun h => hne ⟨rfl, h⟩
        simp [execute, hookTrace, hna]
    | some PhaseRes.ok, hne => simp [execute, hookTrace]
    | some (PhaseRes.err e2), _ => exact absurd hok (by simp [hookOk])
    | some PhaseRes.panics, _ => exact absurd hok (by simp [hookOk])
  · rintro ⟨iso, hb, ha⟩ e rfl hok hae rfl rfl
    simp only at hok hae ⊢
    subst hae
    have hne : ¬(hb = none ∧ (some (PhaseRes.err e) : Option PhaseRes) = none) := by
      rintro ⟨_, h2⟩; exact Option.noConfusion h2
    match hb with
    | none => simp [execute, hookTrace]
    | some PhaseRes.ok => simp [execute, hookTrace]
    | some (PhaseRes.err e2) => exact absurd hok (by simp [hookOk])
    | some PhaseRes.panics => exact absurd hok (by simp [hookOk])
  · rintro ⟨iso, hb, ha⟩ rfl hok hae rfl rfl
    simp only at hok hae ⊢
    subst hae
    match hb with
    | none => simp [execute, hookTrace]
    | some PhaseRes.ok => simp [execute, hookTrace]
    | some (PhaseRes.err e2) => exact absurd hok (by simp [hookOk])
    | some PhaseRes.panics => exact absurd hok (by simp [hookOk])
  · rintro ⟨iso, hb, ha⟩ rfl hne hokb hoka rfl rfl
    simp only at hokb hoka ⊢
    match hb, ha with
    | none, none => exact absurd ⟨rfl, rfl⟩ hne
    | none, some PhaseRes.ok => simp [execute, if_neg hne, hookTrace]
    | some PhaseRes.ok, none => simp [execute, if_neg hne, hookTrace]
    | some PhaseRes.ok, some PhaseRes.ok => simp [execute, if_neg hne, hookTrace]
    | some (PhaseRes.err e2), _ => exact absurd hokb (by simp [hookOk])
    | some PhaseRes.panics, _ => exact absurd hokb (by simp [hookOk])
    | none, some (PhaseRes.err e2) => exact absurd hoka (by simp [hookOk])
    | none, some PhaseRes.panics => exact absurd hoka (by simp [hookOk])
    | some PhaseRes.ok, some (PhaseRes.err e2) => exact absurd hoka (by simp [hookOk])
    | some PhaseRes.ok, some PhaseRes.panics => exact absurd hoka (by simp [hookOk])

/-- Witness for `c6_execute_transactions`: both hooks present and
succeeding — the full begin/before/main/after/commit sequence, returning
the commit outcome. -/
theorem c6_execute_transactions_witness :
    execute (some ⟨"", some PhaseRes.ok, some PhaseRes.ok⟩) none PhaseRes.ok none =
      ([Action.beginTx, Action.runBefore, Action.runMain, Action.runAfter,
        Action.commitTx], ExecOutcome.ret none) := by
  have h10 := (c6_execute_transactions
    (some ⟨"", some PhaseRes.ok, some PhaseRes.ok⟩) none PhaseRes.ok
    none).2.2.2.2.2.2.2.2.2
  have h := h10 ⟨"", some PhaseRes.ok, some PhaseRes.ok⟩ rfl (by simp)
    (by simp [hookOk]) (by simp [hookOk]) rfl rfl
  simpa [hookTrace] using h

end Furk

namespace Furk

theorem alLookup_alUpdate_self {κ α : Type} [DecidableEq κ] (k : κ) (v : α) :
    ∀ (l : List (κ × α)), alLookup (alUpdate l k v) k = some v := by
  intro l
  induction l with
  | nil => simp [alUpdate, alLookup]
  | cons a t ih =>
      by_cases ha : a.1 = k
      · unfold alUpdate
        rw [if_pos ha]
        unfold alLookup
        rw [if_pos ha]
      · unfold alUpdate
        rw [if_neg ha]
        unfold alLookup
        rw [if_neg ha]
        exact ih

theorem alUpdate_keys {κ α : Type} [DecidableEq κ] (k : κ) (v : α) :
    ∀ (l : List (κ × α)),
      (alUpdate l k v).map Prod.fst =
        if k ∈ l.map Prod.fst then l.map Prod.fst else l.map Prod.fst ++ [k] := by
  intro l
  induction l with
  | nil => simp [alUpdate]
  | cons a t ih =>
      by_cases ha : a.1 = k
      · unfold alUpdate
        rw [if_pos ha]
        simp [ha]
      · unfold alUpdate
        rw [if_neg ha]
        by_cases hm : k ∈ t.map Prod.fst
        · simp [List.map_cons, ih, hm, Ne.symm ha]
        · simp [List.map_cons, ih, hm, Ne.symm ha]

theorem alUpdate_keys_nodup {κ α : Type} [DecidableEq κ] (k : κ) (v : α)
    (l : List (κ × α)) (h : (l.map Prod.fst).Nodup) :
    ((alUpdate l k v).map Prod.fst).Nodup := by
  rw [alUpdate_keys]
  by_cases hm : k ∈ l.map Prod.fst
  · rw [if_pos hm]; exact h
  · rw [if_neg hm]
    simpa [List.nodup_append, hm] using h

theorem mem_alUpdate {κ α : Type} [DecidableEq κ] (k : κ) (v : α) :
    ∀ (l : List (κ × α)) (q : κ × α), q ∈ alUpdate l k v → q = (k, v) ∨ q ∈ l := by
  intro l
  induction l with
  | nil => intro q hq; simp [alUpdate] at hq; left; exact hq
  | cons a t ih =>
      intro q hq
      by_cases ha : a.1 = k
      · unfold alUpdate at hq
        rw [if_pos ha] at hq
        rcases List.mem_cons.mp hq with h | h
        · left; rw [h, ha]
        · right; exact List.mem_cons_of_mem a h
      · unfold alUpdate at hq
        rw [if_neg ha] at hq
        rcases List.mem_cons.mp hq with h | h
        · right; rw [h]; exact List.mem_cons_self a t
        · rcases ih q h with h2 | h2
          · left; exact h2
          · right; exact List.mem_cons_of_mem a h2

theorem alLookup_mem {κ α : Type} [DecidableEq κ] (k : κ) (v : α) :
    ∀ (l : List (κ × α)), alLookup l k = some v → (k, v) ∈ l := by
  intro l
  induction l with
  | nil => intro h; exact Option.noConfusion h
  | cons a t ih =>
      intro h
      unfold alLookup at h
      by_cases ha : a.1 = k
      · rw [if_pos ha] at h
        injection h with h
        have hav : a = (k, v) := Prod.ext ha h
        exact hav ▸ List.mem_cons_self a t
      · rw [if_neg ha] at h
        exact List.mem_cons_of_mem a (ih h)

theorem mem_keys_of_alLookup {κ α : Type} [DecidableEq κ] (k : κ) (v : α)
    (l : List (κ × α)) (h : alLookup l k = some v) : k ∈ l.map Prod.fst := by
  have := alLookup_mem k v l h
  exact List.mem_map.mpr ⟨(k, v), this, rfl⟩

/-- The value the right-most element of `l` with the given key
contributes (used to characterize folds of Go-map writes). -/
def lastBy {β κ α : Type} [DecidableEq κ] (key : β → κ) (val : β → α) (c : κ) :
    List β → Option α
  | [] => none
  | q :: rest =>
      match lastBy key val c rest with
      | some v => some v
      | none => if key q = c then some (val q) else none

theorem foldl_alUpdate_lookup {β κ α : Type} [DecidableEq κ]
    (key : β → κ) (val : β → α) :
    ∀ (l : List β) (init : List (κ × α)) (c : κ),
      alLookup (l.foldl (fun out q => alUpdate out (key q) (val q)) init) c =
        match lastBy key val c l with
        | some v => some v
        | none => alLookup init c := by
  intro l
  induction l with
  | nil => intro init c; rfl
  | cons q t ih =>
      intro init c
      rw [List.foldl_cons, ih]
      have hcons : lastBy key val c (q :: t) =
          match lastBy key val c t with
          | some v => some v
          | none => if key q = c then some (val q) else none := rfl
      rw [hcons]
      cases hl : lastBy key val c t with
      | some v => rfl
      | none =>
          by_cases hk : key q = c
          · rw [if_pos hk, hk, alLookup_alUpdate_self]
          · rw [if_neg hk, alLookup_alUpdate_ne (key q) (val q) c hk]

theorem lastBy_append {β κ α : Type} [DecidableEq κ]
    (key : β → κ) (val : β → α) (c : κ) :
    ∀ (xs ys : List β),
      lastBy key val c (xs ++ ys) =
        match lastBy key val c ys with
        | some v => some v
        | none => lastBy key val c xs := by
  intro xs ys
  induction xs with
  | nil =>
      rw [List.nil_append]
      cases lastBy key val c ys <;> rfl
  | cons q t ih =>
      have hcons : lastBy key val c ((q :: t) ++ ys) =
          match lastBy key val c (t ++ ys) with
          | some v => some v
          | none => if key q = c then some (val q) else none := rfl
      have hcons2 : lastBy key val c (q :: t) =
          match lastBy key val c t with
          | some v => some v
          | none => if key q = c then some (val q) else none := rfl
      rw [hcons, ih, hcons2]
      cases hys : lastBy key val c ys with
      | some v => rfl
      | none =>
          cases ht : lastBy key val c t with
          | some v => rfl
          | none => by_cases hk : key q = c <;> simp [hk]

theorem lastBy_eq_none {β κ α : Type} [DecidableEq κ]
    (key : β → κ) (val : β → α) (c : κ) :
    ∀ (l : List β), (∀ q ∈ l, key q ≠ c) → lastBy key val c l = none := by
  intro l
  induction l with
  | nil => intro _; rfl
  | cons q t ih =>
      intro h
      unfold lastBy
      rw [ih (fun x hx => h x (List.mem_cons_of_mem q hx))]
      rw [if_neg (h q (List.mem_cons_self q t))]

end Furk

namespace Furk

/-- The flat-column pairs of a processed pair list. -/
def flats (l : List (Field × GoVal)) : List (Field × GoVal) :=
  l.filter (fun p => p.1.jsonb = "")

/-- First-occurrence-per-name deduplication (what the `fieldsIndex`
check achieves over the processed flat pairs). -/
def dedupByName (seen : List String) : List (Field × GoVal) → List Field
  | [] => []
  | p :: rest =>
      if seen.contains p.1.name then dedupByName seen rest
      else p.1 :: dedupByName (p.1.name :: seen) rest

def idxAssoc : List Field → Nat → List (String × Nat)
  | [], _ => []
  | f :: rest, k => (f.name, k) :: idxAssoc rest (k + 1)

def dollarsFrom : Nat → Nat → List String
  | _, 0 => []
  | k, n + 1 => dollar k :: dollarsFrom (k + 1) n

/-- The jsonb branch of the builders' inner loop. -/
def jsonbGroupsStep (acc : List (String × Furk.Changes)) (p : Field × GoVal) :
    List (String × Furk.Changes) :=
  if p.1.jsonb ≠ "" then
    alUpdate acc p.1.jsonb (alUpdate ((alLookup acc p.1.jsonb).getD []) p.1 p.2)
  else acc

def jsonbGroups (l : List (Field × GoVal)) : List (String × Furk.Changes) :=
  l.foldl jsonbGroupsStep []

def lastFlatVal (n : String) (l : List (Field × GoVal)) : Option GoVal :=
  lastBy (fun p => p.1.name) Prod.snd n (flats l)

theorem flats_snoc (xs : List (Field × GoVal)) (p : Field × GoVal) :
    flats (xs ++ [p]) = flats xs ++ (if p.1.jsonb = "" then [p] else []) := by
  unfold flats
  rw [List.filter_append]
  by_cases hp : p.1.jsonb = "" <;> simp [hp]

theorem dedup_cons (seen : List String) (a : Field × GoVal) (rest : List (Field × GoVal)) :
    dedupByName seen (a :: rest) =
      if seen.contains a.1.name then dedupByName seen rest
      else a.1 :: dedupByName (a.1.name :: seen) rest := rfl

theorem dedup_snoc (p : Field × GoVal) :
    ∀ (xs : List (Field × GoVal)) (seen : List String),
      dedupByName seen (xs ++ [p]) =
        dedupByName seen xs ++
          (if seen.contains p.1.name ∨ xs.any (fun q => q.1.name = p.1.name)
           then [] else [p.1]) := by
  intro xs
  induction xs with
  | nil =>
      intro seen
      by_cases hs : seen.contains p.1.name <;> simp [dedupByName, hs]
  | cons a t ih =>
      intro seen
      show dedupByName seen (a :: (t ++ [p])) = _
      by_cases ha : seen.contains a.1.name
      · have ha2 : dedupByName seen (a :: (t ++ [p])) = dedupByName seen (t ++ [p]) := by
          rw [dedup_cons, if_pos ha]
        have ha3 : dedupByName seen (a :: t) = dedupByName seen t := by
          rw [dedup_cons, if_pos ha]
        rw [ha2, ih seen, ha3]
        by_cases hap : a.1.name = p.1.name
        · have hsp : seen.contains p.1.name = true := hap ▸ ha
          rw [if_pos (Or.inl hsp), if_pos (Or.inl hsp)]
        · have hd : decide (a.1.name = p.1.name) = false := by simp [hap]
          simp only [List.any_cons]
          have hcond : (decide (a.1.name = p.1.name) ||
              t.any fun q => decide (q.1.name = p.1.name)) =
              (t.any fun q => decide (q.1.name = p.1.name)) := by
            rw [hd, Bool.false_or]
          simp only [hcond]
      · have ha2 : dedupByName seen (a :: (t ++ [p])) =
            a.1 :: dedupByName (a.1.name :: seen) (t ++ [p]) := by
          rw [dedup_cons, if_neg ha]
        have ha3 : dedupByName seen (a :: t) =
            a.1 :: dedupByName (a.1.name :: seen) t := by
          rw [dedup_cons, if_neg ha]
        rw [ha2, ih (a.1.name :: seen), ha3]
        simp only [List.cons_append]
        by_cases hap : a.1.name = p.1.name
        · simp [List.contains_cons, hap, List.any_cons]
        · have h1 : (a.1.name :: seen).contains p.1.name = seen.contains p.1.name := by
            simp [List.contains_cons, Ne.symm hap]
          rw [h1]
          have hd : decide (a.1.name = p.1.name) = false := by simp [hap]
          simp only [List.any_cons]
          have hcond : (decide (a.1.name = p.1.name) ||
              t.any fun q => decide (q.1.name = p.1.name)) =
              (t.any fun q => decide (q.1.name = p.1.name)) := by
            rw [hd, Bool.false_or]
          simp only [hcond]

theorem dedup_mem_names :
    ∀ (xs : List (Field × GoVal)) (seen : List String) (n : String),
      n ∈ (dedupByName seen xs).map Field.name ↔
        (seen.contains n = false ∧ xs.any (fun q => q.1.name = n) = true) := by
  intro xs
  induction xs with
  | nil => intro seen n; simp [dedupByName]
  | cons a t ih =>
      intro seen n
      rw [dedup_cons]
      by_cases ha : seen.contains a.1.name
      · rw [if_pos ha]
        rw [ih seen n]
        constructor
        · rintro ⟨h1, h2⟩
          exact ⟨h1, by simp [List.any_cons, h2]⟩
        · rintro ⟨h1, h2⟩
          refine ⟨h1, ?_⟩
          simp only [List.any_cons, Bool.or_eq_true] at h2
          rcases h2 with h2 | h2
          · exfalso
            have : a.1.name = n := by simpa using h2
            rw [this] at ha
            rw [ha] at h1
            exact Bool.noConfusion h1
          · exact h2
      · rw [if_neg ha]
        simp only [List.map_cons, List.mem_cons]
        rw [ih (a.1.name :: seen) n]
        by_cases han : a.1.name = n
        · subst han
          have ham : a.1.name ∉ seen := by simpa using ha
          simp [List.any_cons, ha, ham]
        · constructor
          · rintro (h | ⟨h1, h2⟩)
            · exact absurd h.symm han
            · have h1b : seen.contains n = false := by
                simp only [List.contains_cons, Bool.or_eq_false_iff] at h1
                exact h1.2
              exact ⟨h1b, by simp [List.any_cons, h2]⟩
          · rintro ⟨h1, h2⟩
            right
            have h1b : (a.1.name :: seen).contains n = false := by
              have hns : n ∉ seen := by simpa using h1
              simpa using And.intro (fun e => han e.symm) hns
            refine ⟨h1b, ?_⟩
            simp only [List.any_cons, Bool.or_eq_true] at h2
            rcases h2 with h2 | h2
            · exact absurd (by simpa using h2) han
            · exact h2

theorem dedup_names_nodup :
    ∀ (xs : List (Field × GoVal)) (seen : List String),
      ((dedupByName seen xs).map Field.name).Nodup := by
  intro xs
  induction xs with
  | nil => intro seen; simp [dedupByName]
  | cons a t ih =>
      intro seen
      rw [dedup_cons]
      by_cases ha : seen.contains a.1.name
      · rw [if_pos ha]; exact ih seen
      · rw [if_neg ha]
        simp only [List.map_cons, List.nodup_cons]
        refine ⟨?_, ih (a.1.name :: seen)⟩
        intro hmem
        have := (dedup_mem_names t (a.1.name :: seen) a.1.name).mp hmem
        simp [List.contains_cons] at this

theorem dedup_sub :
    ∀ (xs : List (Field × GoVal)) (seen : List String) (f : Field),
      f ∈ dedupByName seen xs → ∃ p ∈ xs, p.1 = f := by
  intro xs
  induction xs with
  | nil => intro seen f h; simp [dedupByName] at h
  | cons a t ih =>
      intro seen f h
      rw [dedup_cons] at h
      by_cases ha : seen.contains a.1.name
      · rw [if_pos ha] at h
        obtain ⟨p, hp, hpf⟩ := ih seen f h
        exact ⟨p, List.mem_cons_of_mem a hp, hpf⟩
      · rw [if_neg ha] at h
        rcases List.mem_cons.mp h with h | h
        · exact ⟨a, List.mem_cons_self a t, h.symm⟩
        · obtain ⟨p, hp, hpf⟩ := ih _ f h
          exact ⟨p, List.mem_cons_of_mem a hp, hpf⟩

end Furk

namespace Furk

theorem idxAssoc_snoc (f : Field) :
    ∀ (ded : List Field) (k0 : Nat),
      idxAssoc (ded ++ [f]) k0 = idxAssoc ded k0 ++ [(f.name, k0 + ded.length)] := by
  intro ded
  induction ded with
  | nil => intro k0; simp [idxAssoc]
  | cons g t ih =>
      intro k0
      show idxAssoc (g :: (t ++ [f])) k0 = _
      unfold idxAssoc
      rw [ih (k0 + 1)]
      simp only [List.cons_append, List.length_cons]
      have h2 : k0 + 1 + t.length = k0 + (t.length + 1) := by omega
      rw [h2]

theorem idxAssoc_lookup_none (n : String) :
    ∀ (ded : List Field) (k0 : Nat), n ∉ ded.map Field.name →
      alLookup (idxAssoc ded k0) n = none := by
  intro ded
  induction ded with
  | nil => intro k0 _; rfl
  | cons g t ih =>
      intro k0 h
      simp only [List.map_cons, List.mem_cons] at h
      push_neg at h
      unfold idxAssoc alLookup
      rw [if_neg (fun e => h.1 e.symm)]
      exact ih (k0 + 1) h.2

theorem idxAssoc_lookup (n : String) :
    ∀ (ded : List Field) (k0 : Nat), (ded.map Field.name).Nodup →
      n ∈ ded.map Field.name →
      ∃ j f, ded.get? j = some f ∧ f.name = n ∧
        alLookup (idxAssoc ded k0) n = some (k0 + j) := by
  intro ded
  induction ded with
  | nil => intro k0 _ h; simp at h
  | cons g t ih =>
      intro k0 hnd hmem
      simp only [List.map_cons, List.nodup_cons] at hnd
      by_cases hg : g.name = n
      · refine ⟨0, g, rfl, hg, ?_⟩
        unfold idxAssoc alLookup
        rw [if_pos hg]
        simp
      · have hmem2 : n ∈ t.map Field.name := by
          simp only [List.map_cons, List.mem_cons] at hmem
          rcases hmem with h | h
          · exact absurd h.symm hg
          · exact h
        obtain ⟨j, f, hget, hfn, hlook⟩ := ih (k0 + 1) hnd.2 hmem2
        refine ⟨j + 1, f, by simpa using hget, hfn, ?_⟩
        unfold idxAssoc alLookup
        rw [if_neg hg, hlook]
        congr 1
        omega

theorem dollarsFrom_snoc :
    ∀ (n k0 : Nat), dollarsFrom k0 (n + 1) = dollarsFrom k0 n ++ [dollar (k0 + n)] := by
  intro n
  induction n with
  | zero => intro k0; simp [dollarsFrom]
  | succ m ih =>
      intro k0
      show dollar k0 :: dollarsFrom (k0 + 1) (m + 1) = _
      rw [ih (k0 + 1)]
      show dollar k0 :: (dollarsFrom (k0 + 1) m ++ [dollar (k0 + 1 + m)]) = _
      have : k0 + 1 + m = k0 + (m + 1) := by omega
      rw [this]
      rfl

theorem dollarsFrom_length : ∀ (n k0 : Nat), (dollarsFrom k0 n).length = n := by
  intro n
  induction n with
  | zero => intro k0; rfl
  | succ m ih => intro k0; show (dollar k0 :: dollarsFrom (k0 + 1) m).length = m + 1; simp [ih]

theorem dollarsFrom_get :
    ∀ (n k0 j : Nat), j < n → (dollarsFrom k0 n).get? j = some (dollar (k0 + j)) := by
  intro n
  induction n with
  | zero => intro k0 j h; omega
  | succ m ih =>
      intro k0 j h
      cases j with
      | zero => rfl
      | succ i =>
          show (dollarsFrom (k0 + 1) m).get? i = _
          rw [ih (k0 + 1) i (by omega)]
          congr 2
          omega

theorem map_ite_of_no_name (n : String) (g : Field → GoVal) (w : GoVal) :
    ∀ (ded : List Field), (∀ f ∈ ded, f.name ≠ n) →
      ded.map (fun f => if f.name = n then w else g f) = ded.map g := by
  intro ded
  induction ded with
  | nil => intro _; rfl
  | cons f t ih =>
      intro h
      simp only [List.map_cons]
      rw [if_neg (h f (List.mem_cons_self f t))]
      rw [ih (fun x hx => h x (List.mem_cons_of_mem f hx))]

theorem map_set_at_name (n : String) (g : Field → GoVal) (w : GoVal) :
    ∀ (ded : List Field) (j : Nat) (fj : Field),
      (ded.map Field.name).Nodup → ded.get? j = some fj → fj.name = n →
      ded.map (fun f => if f.name = n then w else g f) = (ded.map g).set j w := by
  intro ded
  induction ded with
  | nil => intro j fj _ hget _; simp at hget
  | cons f t ih =>
      intro j fj hnd hget hn
      simp only [List.map_cons, List.nodup_cons] at hnd
      cases j with
      | zero =>
          injection hget with hget
          subst hget
          simp only [List.map_cons, List.set]
          rw [if_pos hn]
          congr 1
          apply map_ite_of_no_name
          intro x hx he
          exact hnd.1 (by rw [hn, ← he]; exact List.mem_map_of_mem Field.name hx)
      | succ i =>
          have hget2 : t.get? i = some fj := by simpa using hget
          simp only [List.map_cons, List.set]
          have hfn : f.name ≠ n := by
            intro he
            apply hnd.1
            rw [he, ← hn]
            have : fj ∈ t := List.get?_mem hget2
            exact List.mem_map_of_mem Field.name this
          rw [if_neg hfn]
          rw [ih i fj hnd.2 hget2 hn]

end Furk

namespace Furk

/-- The fully determined state of `Insert`'s flat/jsonb accumulation
after processing a pair list: first-seen-order deduplicated flat fields,
last-write-wins values, and the jsonb groups. -/
def insSpec (l : List (Field × GoVal)) : InsState :=
  { fields := (dedupByName [] (flats l)).map (fun f => f.columnName)
    fieldsIndex := idxAssoc (dedupByName [] (flats l)) 0
    numbers := dollarsFrom 1 (dedupByName [] (flats l)).length
    values := (dedupByName [] (flats l)).map
      (fun f => (lastFlatVal f.name l).getD GoVal.vNull)
    jsonbFields := jsonbGroups l
    i := (dedupByName [] (flats l)).length + 1 }

theorem insSpec_nil : insSpec [] = insInit := rfl

theorem lastFlatVal_snoc (n : String) (xs : List (Field × GoVal)) (p : Field × GoVal) :
    lastFlatVal n (xs ++ [p]) =
      if p.1.jsonb = "" then
        (if p.1.name = n then some p.2 else lastFlatVal n xs)
      else lastFlatVal n xs := by
  unfold lastFlatVal
  rw [flats_snoc]
  by_cases hp : p.1.jsonb = ""
  · rw [if_pos hp, if_pos hp]
    rw [lastBy_append]
    have hone : lastBy (fun p => p.1.name) Prod.snd n [p] =
        if p.1.name = n then some p.2 else none := by
      show (match (none : Option GoVal) with
            | some v => some v
            | none => if p.1.name = n then some p.2 else none) = _
      rfl
    rw [hone]
    by_cases hn : p.1.name = n
    · rw [if_pos hn, if_pos hn]
    · rw [if_neg hn, if_neg hn]
  · rw [if_neg hp, if_neg hp, List.append_nil]

theorem jsonbGroups_snoc (xs : List (Field × GoVal)) (p : Field × GoVal) :
    jsonbGroups (xs ++ [p]) = jsonbGroupsStep (jsonbGroups xs) p := by
  unfold jsonbGroups
  rw [List.foldl_append]
  rfl

theorem ins_spec_snoc (xs : List (Field × GoVal)) (p : Field × GoVal) :
    insSpec (xs ++ [p]) = insStep (insSpec xs) p := by
  by_cases hp : p.1.jsonb = ""
  · -- flat pair
    have hflats : flats (xs ++ [p]) = flats xs ++ [p] := by
      rw [flats_snoc, if_pos hp]
    have hlast : ∀ n, lastFlatVal n (xs ++ [p]) =
        if p.1.name = n then some p.2 else lastFlatVal n xs := by
      intro n
      rw [lastFlatVal_snoc, if_pos hp]
    have hgroups : jsonbGroups (xs ++ [p]) = jsonbGroups xs := by
      rw [jsonbGroups_snoc]
      unfold jsonbGroupsStep
      rw [if_neg (by simp [hp])]
    have hded := dedup_snoc p (flats xs) []
    simp only [List.contains, List.elem_nil, Bool.false_eq_true, false_or] at hded
    by_cases hseen : ((flats xs).any fun q => decide (q.1.name = p.1.name)) = true
    · -- the name was already seen: values overwritten in place
      have hded2 : dedupByName [] (flats (xs ++ [p])) = dedupByName [] (flats xs) := by
        rw [hflats, hded, if_pos hseen, List.append_nil]
      have hmm : p.1.name ∈ (dedupByName [] (flats xs)).map Field.name :=
        (dedup_mem_names (flats xs) [] p.1.name).mpr ⟨rfl, hseen⟩
      obtain ⟨j, fj, hget, hfn, hlook⟩ :=
        idxAssoc_lookup p.1.name (dedupByName [] (flats xs)) 0
          (dedup_names_nodup (flats xs) []) hmm
      have hstep : insStep (insSpec xs) p =
          { insSpec xs with values := (insSpec xs).values.set (0 + j) p.2 } := by
        unfold insStep
        rw [if_neg (by simp [hp])]
        have hfi : (insSpec xs).fieldsIndex =
            idxAssoc (dedupByName [] (flats xs)) 0 := rfl
        rw [hfi, hlook]
        rfl
      rw [hstep]
      simp only [insSpec]
      simp only [InsState.mk.injEq]
      refine ⟨by rw [hded2], by rw [hded2], by rw [hded2], ?_, hgroups, by rw [hded2]⟩
      rw [hded2]
      have hmap : (dedupByName [] (flats xs)).map
          (fun f => (lastFlatVal f.name (xs ++ [p])).getD GoVal.vNull) =
          (dedupByName [] (flats xs)).map
            (fun f => if f.name = p.1.name then p.2
              else (lastFlatVal f.name xs).getD GoVal.vNull) := by
        apply List.map_congr_left
        intro f _
        rw [hlast f.name]
        by_cases hn : f.name = p.1.name
        · rw [if_pos hn.symm, if_pos hn]
          rfl
        · rw [if_neg (fun e => hn e.symm), if_neg hn]
      rw [hmap]
      rw [map_set_at_name p.1.name _ p.2 (dedupByName [] (flats xs)) j fj
        (dedup_names_nodup (flats xs) []) hget hfn]
      simp
    · -- a new name: everything appended
      have hseenf : ((flats xs).any fun q => decide (q.1.name = p.1.name)) = false := by
        cases hx : (flats xs).any fun q => decide (q.1.name = p.1.name)
        · rfl
        · exact absurd hx hseen
      have hded2 : dedupByName [] (flats (xs ++ [p])) =
          dedupByName [] (flats xs) ++ [p.1] := by
        rw [hflats, hded, if_neg (by rw [hseenf]; exact Bool.noConfusion)]
      have hnone : p.1.name ∉ (dedupByName [] (flats xs)).map Field.name := by
        intro hmem
        have := ((dedup_mem_names (flats xs) [] p.1.name).mp hmem).2
        rw [this] at hseenf
        exact Bool.noConfusion hseenf
      have hlookn : alLookup (idxAssoc (dedupByName [] (flats xs)) 0) p.1.name = none :=
        idxAssoc_lookup_none p.1.name (dedupByName [] (flats xs)) 0 hnone
      have hstep : insStep (insSpec xs) p =
          { fields := (insSpec xs).fields ++ [p.1.columnName]
            fieldsIndex := (insSpec xs).fieldsIndex ++ [(p.1.name, (insSpec xs).i - 1)]
            numbers := (insSpec xs).numbers ++ [dollar (insSpec xs).i]
            values := (insSpec xs).values ++ [p.2]
            jsonbFields := (insSpec xs).jsonbFields
            i := (insSpec xs).i + 1 } := by
        unfold insStep
        rw [if_neg (by simp [hp])]
        have hfi : (insSpec xs).fieldsIndex =
            idxAssoc (dedupByName [] (flats xs)) 0 := rfl
        rw [hfi, hlookn]
      rw [hstep]
      simp only [insSpec]
      simp only [InsState.mk.injEq]
      refine ⟨?_, ?_, ?_, ?_, hgroups, ?_⟩
      · rw [hded2, List.map_append]
        simp
      · rw [hded2, idxAssoc_snoc]
        simp
      · rw [hded2]
        simp only [List.length_append, List.length_singleton]
        rw [dollarsFrom_snoc]
        have : 1 + (dedupByName [] (flats xs)).length =
            (dedupByName [] (flats xs)).length + 1 := by omega
        rw [this]
      · rw [hded2, List.map_append]
        congr 1
        · apply List.map_congr_left
          intro f hf
          rw [hlast f.name]
          have hfn : f.name ≠ p.1.name := by
            intro he
            apply hnone
            rw [← he]
            exact List.mem_map_of_mem Field.name hf
          rw [if_neg (fun e => hfn e.symm)]
        · simp only [List.map_singleton]
          rw [hlast p.1.name, if_pos rfl]
          rfl
      · rw [hded2]
        simp
  · -- document pair: only the jsonb groups change
    have hflats : flats (xs ++ [p]) = flats xs := by
      rw [flats_snoc, if_neg hp, List.append_nil]
    have hlast : ∀ n, lastFlatVal n (xs ++ [p]) = lastFlatVal n xs := by
      intro n
      rw [lastFlatVal_snoc, if_neg hp]
    have hstep : insStep (insSpec xs) p =
        { insSpec xs with jsonbFields := alUpdate (insSpec xs).jsonbFields p.1.jsonb (alUpdate ((alLookup (insSpec xs).jsonbFields p.1.jsonb).getD []) p.1 p.2) } := by
      unfold insStep
      rw [if_pos hp]
    rw [hstep]
    simp only [insSpec]
    simp only [InsState.mk.injEq]
    refine ⟨by rw [hflats], by rw [hflats], by rw [hflats], ?_, ?_, by rw [hflats]⟩
    · rw [hflats]
      apply List.map_congr_left
      intro f _
      rw [hlast f.name]
    · rw [jsonbGroups_snoc]
      unfold jsonbGroupsStep
      rw [if_pos hp]

end Furk

namespace Furk

theorem set_append_right {α : Type} (x : α) :
    ∀ (a b : List α) (k : Nat), (a ++ b).set (a.length + k) x = a ++ b.set k x := by
  intro a
  induction a with
  | nil => intro b k; simp
  | cons h t ih =>
      intro b k
      simp only [List.cons_append, List.length_cons]
      have hn : t.length + 1 + k = (t.length + k) + 1 := by omega
      rw [hn]
      simp only [List.set]
      rw [ih b k]

theorem lastBy_filter {β κ α : Type} [DecidableEq κ]
    (key : β → κ) (val : β → α) (c : κ) (q : β → Bool) :
    ∀ (l : List β), (∀ p ∈ l, key p = c → q p = true) →
      lastBy key val c (l.filter q) = lastBy key val c l := by
  intro l
  induction l with
  | nil => intro _; rfl
  | cons p t ih =>
      intro h
      have ht := ih (fun x hx => h x (List.mem_cons_of_mem p hx))
      by_cases hq : q p = true
      · rw [List.filter_cons_of_pos hq]
        have h1 : lastBy key val c (p :: t.filter q) =
            match lastBy key val c (t.filter q) with
            | some v => some v
            | none => if key p = c then some (val p) else none := rfl
        have h2 : lastBy key val c (p :: t) =
            match lastBy key val c t with
            | some v => some v
            | none => if key p = c then some (val p) else none := rfl
        rw [h1, h2, ht]
      · rw [List.filter_cons_of_neg hq]
        rw [ht]
        have h2 : lastBy key val c (p :: t) =
            match lastBy key val c t with
            | some v => some v
            | none => if key p = c then some (val p) else none := rfl
        rw [h2]
        cases hl : lastBy key val c t with
        | some v => rfl
        | none =>
            rw [if_neg (fun hk => hq (h p (List.mem_cons_self p t) hk))]

theorem lastBy_congr {β κ1 κ2 α : Type} [DecidableEq κ1] [DecidableEq κ2]
    (k1 : β → κ1) (k2 : β → κ2) (val : β → α) (c1 : κ1) (c2 : κ2) :
    ∀ (l : List β), (∀ p ∈ l, (k1 p = c1 ↔ k2 p = c2)) →
      lastBy k1 val c1 l = lastBy k2 val c2 l := by
  intro l
  induction l with
  | nil => intro _; rfl
  | cons p t ih =>
      intro h
      have h1 : lastBy k1 val c1 (p :: t) =
          match lastBy k1 val c1 t with
          | some v => some v
          | none => if k1 p = c1 then some (val p) else none := rfl
      have h2 : lastBy k2 val c2 (p :: t) =
          match lastBy k2 val c2 t with
          | some v => some v
          | none => if k2 p = c2 then some (val p) else none := rfl
      rw [h1, h2, ih (fun x hx => h x (List.mem_cons_of_mem p hx))]
      cases hl : lastBy k2 val c2 t with
      | some v => rfl
      | none =>
          by_cases hk : k2 p = c2
          · rw [if_pos hk, if_pos ((h p (List.mem_cons_self p t)).mpr hk)]
          · rw [if_neg hk, if_neg (fun e => hk ((h p (List.mem_cons_self p t)).mp e))]

theorem lastBy_some_ex {β κ α : Type} [DecidableEq κ]
    (key : β → κ) (val : β → α) (c : κ) :
    ∀ (l : List β) (v : α), lastBy key val c l = some v → ∃ q ∈ l, key q = c := by
  intro l
  induction l with
  | nil => intro v h; exact Option.noConfusion h
  | cons p t ih =>
      intro v h
      have h1 : lastBy key val c (p :: t) =
          match lastBy key val c t with
          | some v => some v
          | none => if key p = c then some (val p) else none := rfl
      rw [h1] at h
      cases hl : lastBy key val c t with
      | some w =>
          obtain ⟨q, hq, hk⟩ := ih w hl
          exact ⟨q, List.mem_cons_of_mem p hq, hk⟩
      | none =>
          rw [hl] at h
          by_cases hk : key p = c
          · exact ⟨p, List.mem_cons_self p t, hk⟩
          · rw [if_neg hk] at h
            exact Option.noConfusion h

theorem alLookup_eq_lastBy {κ α : Type} [DecidableEq κ] (c : κ) :
    ∀ (l : List (κ × α)), (l.map Prod.fst).Nodup →
      lastBy Prod.fst Prod.snd c l = alLookup l c := by
  intro l
  induction l with
  | nil => intro _; rfl
  | cons p t ih =>
      intro hnd
      simp only [List.map_cons, List.nodup_cons] at hnd
      have h1 : lastBy Prod.fst Prod.snd c (p :: t) =
          match lastBy Prod.fst Prod.snd c t with
          | some v => some v
          | none => if p.1 = c then some p.2 else none := rfl
      have hAL : alLookup (p :: t) c = if p.1 = c then some p.2 else alLookup t c := rfl
      rw [h1, ih hnd.2, hAL]
      by_cases hk : p.1 = c
      · have hnone : alLookup t c = none := by
          rw [← ih hnd.2]
          apply lastBy_eq_none
          intro q hq he
          exact hnd.1 (by rw [hk, ← he]; exact List.mem_map_of_mem Prod.fst hq)
        rw [hnone, if_pos hk]
      · cases alLookup t c <;> simp [hk]

theorem flats_append (a b : List (Field × GoVal)) :
    flats (a ++ b) = flats a ++ flats b := by
  unfold flats
  rw [List.filter_append]

theorem ins_fold_spec :
    ∀ (l : List (Field × GoVal)), List.foldl insStep insInit l = insSpec l := by
  intro l
  induction l using List.reverseRecOn with
  | nil => rfl
  | append_singleton xs p ih =>
      rw [List.foldl_append, ih, List.foldl_cons, List.foldl_nil, ins_spec_snoc]

theorem insJsonb_fold :
    ∀ (gs : List (String × Furk.Changes)) (s : InsState),
      (gs.foldl insJsonbStep s).values =
        s.values ++ gs.map (fun g => GoVal.vStr (jsonbGroupText g.2)) ∧
      (gs.foldl insJsonbStep s).fields = s.fields ++ gs.map Prod.fst := by
  intro gs
  induction gs with
  | nil => intro s; simp
  | cons g t ih =>
      intro s
      rw [List.foldl_cons]
      obtain ⟨hv, hf⟩ := ih (insJsonbStep s g)
      refine ⟨?_, ?_⟩
      · rw [hv]
        show (s.values ++ [GoVal.vStr (jsonbGroupText g.2)]) ++ _ = _
        rw [List.append_assoc]
        rfl
      · rw [hf]
        show (s.fields ++ [g.1]) ++ _ = _
        rw [List.append_assoc]
        rfl

end Furk

namespace Furk

/-- The SET-clause assignment strings, one per flat column, numbered
from `k`. -/
def assignsFrom : Nat → List Field → List String
  | _, [] => []
  | k, f :: rest => (f.columnName ++ " = " ++ dollar k) :: assignsFrom (k + 1) rest

theorem assignsFrom_snoc (f : Field) :
    ∀ (ded : List Field) (k0 : Nat),
      assignsFrom k0 (ded ++ [f]) =
        assignsFrom k0 ded ++ [f.columnName ++ " = " ++ dollar (k0 + ded.length)] := by
  intro ded
  induction ded with
  | nil => intro k0; simp [assignsFrom]
  | cons g t ih =>
      intro k0
      show assignsFrom k0 (g :: (t ++ [f])) = _
      unfold assignsFrom
      rw [ih (k0 + 1)]
      simp only [List.cons_append, List.length_cons]
      have h2 : k0 + 1 + t.length = k0 + (t.length + 1) := by omega
      rw [h2]

theorem assignsFrom_get :
    ∀ (ded : List Field) (k0 j : Nat) (f : Field), ded.get? j = some f →
      (assignsFrom k0 ded).get? j = some (f.columnName ++ " = " ++ dollar (k0 + j)) := by
  intro ded
  induction ded with
  | nil => intro k0 j f h; simp at h
  | cons g t ih =>
      intro k0 j f h
      cases j with
      | zero =>
          injection h with h
          subst h
          rfl
      | succ i =>
          have h2 : t.get? i = some f := by simpa using h
          show (assignsFrom (k0 + 1) t).get? i = _
          rw [ih (k0 + 1) i f h2]
          congr 3
          omega

/-- The fully determined state of `Update`'s accumulation after the
double loop, with `args` WHERE-clause parameters in front. -/
def updSpec (args : List GoVal) (l : List (Field × GoVal)) : UpdState :=
  { fields := assignsFrom (args.length + 1) (dedupByName [] (flats l))
    fieldsIndex := idxAssoc (dedupByName [] (flats l)) args.length
    values := args ++ (dedupByName [] (flats l)).map
      (fun f => (lastFlatVal f.name l).getD GoVal.vNull)
    jsonbFields := jsonbGroups l
    i := args.length + 1 + (dedupByName [] (flats l)).length }

theorem updSpec_nil (args : List GoVal) :
    updSpec args [] =
      { fields := [], fieldsIndex := [], values := args, jsonbFields := [],
        i := args.length + 1 } := by
  unfold updSpec
  simp [flats, dedupByName, idxAssoc, assignsFrom, jsonbGroups]

theorem upd_spec_snoc (args : List GoVal) (xs : List (Field × GoVal)) (p : Field × GoVal) :
    updSpec args (xs ++ [p]) = updStep (updSpec args xs) p := by
  by_cases hp : p.1.jsonb = ""
  · -- flat pair
    have hflats : flats (xs ++ [p]) = flats xs ++ [p] := by
      rw [flats_snoc, if_pos hp]
    have hlast : ∀ n, lastFlatVal n (xs ++ [p]) =
        if p.1.name = n then some p.2 else lastFlatVal n xs := by
      intro n
      rw [lastFlatVal_snoc, if_pos hp]
    have hgroups : jsonbGroups (xs ++ [p]) = jsonbGroups xs := by
      rw [jsonbGroups_snoc]
      unfold jsonbGroupsStep
      rw [if_neg (by simp [hp])]
    have hded := dedup_snoc p (flats xs) []
    simp only [List.contains, List.elem_nil, Bool.false_eq_true, false_or] at hded
    by_cases hseen : ((flats xs).any fun q => decide (q.1.name = p.1.name)) = true
    · -- the name was already seen: values overwritten in place
      have hded2 : dedupByName [] (flats (xs ++ [p])) = dedupByName [] (flats xs) := by
        rw [hflats, hded, if_pos hseen, List.append_nil]
      have hmm : p.1.name ∈ (dedupByName [] (flats xs)).map Field.name :=
        (dedup_mem_names (flats xs) [] p.1.name).mpr ⟨rfl, hseen⟩
      obtain ⟨j, fj, hget, hfn, hlook⟩ :=
        idxAssoc_lookup p.1.name (dedupByName [] (flats xs)) args.length
          (dedup_names_nodup (flats xs) []) hmm
      have hstep : updStep (updSpec args xs) p =
          { updSpec args xs with
            values := (updSpec args xs).values.set (args.length + j) p.2 } := by
        unfold updStep
        rw [if_neg (by simp [hp])]
        have hfi : (updSpec args xs).fieldsIndex =
            idxAssoc (dedupByName [] (flats xs)) args.length := rfl
        rw [hfi, hlook]
        rfl
      rw [hstep]
      simp only [updSpec]
      simp only [UpdState.mk.injEq]
      refine ⟨by rw [hded2], by rw [hded2], ?_, hgroups, by rw [hded2]⟩
      rw [hded2]
      have hmap : (dedupByName [] (flats xs)).map
          (fun f => (lastFlatVal f.name (xs ++ [p])).getD GoVal.vNull) =
          (dedupByName [] (flats xs)).map
            (fun f => if f.name = p.1.name then p.2
              else (lastFlatVal f.name xs).getD GoVal.vNull) := by
        apply List.map_congr_left
        intro f _
        rw [hlast f.name]
        by_cases hn : f.name = p.1.name
        · rw [if_pos hn.symm, if_pos hn]
          rfl
        · rw [if_neg (fun e => hn e.symm), if_neg hn]
      rw [hmap]
      rw [map_set_at_name p.1.name _ p.2 (dedupByName [] (flats xs)) j fj
        (dedup_names_nodup (flats xs) []) hget hfn]
      rw [set_append_right]
    · -- a new name: everything appended
      have hseenf : ((flats xs).any fun q => decide (q.1.name = p.1.name)) = false := by
        cases hx : (flats xs).any fun q => decide (q.1.name = p.1.name)
        · rfl
        · exact absurd hx hseen
      have hded2 : dedupByName [] (flats (xs ++ [p])) =
          dedupByName [] (flats xs) ++ [p.1] := by
        rw [hflats, hded, if_neg (by rw [hseenf]; exact Bool.noConfusion)]
      have hnone : p.1.name ∉ (dedupByName [] (flats xs)).map Field.name := by
        intro hmem
        have := ((dedup_mem_names (flats xs) [] p.1.name).mp hmem).2
        rw [this] at hseenf
        exact Bool.noConfusion hseenf
      have hlookn : alLookup (idxAssoc (dedupByName [] (flats xs)) args.length)
          p.1.name = none :=
        idxAssoc_lookup_none p.1.name (dedupByName [] (flats xs)) args.length hnone
      have hstep : updStep (updSpec args xs) p =
          { fields := (updSpec args xs).fields ++
              [p.1.columnName ++ " = " ++ dollar (updSpec args xs).i]
            fieldsIndex := (updSpec args xs).fieldsIndex ++
              [(p.1.name, (updSpec args xs).i - 1)]
            values := (updSpec args xs).values ++ [p.2]
            jsonbFields := (updSpec args xs).jsonbFields
            i := (updSpec args xs).i + 1 } := by
        unfold updStep
        rw [if_neg (by simp [hp])]
        have hfi : (updSpec args xs).fieldsIndex =
            idxAssoc (dedupByName [] (flats xs)) args.length := rfl
        rw [hfi, hlookn]
      rw [hstep]
      simp only [updSpec]
      simp only [UpdState.mk.injEq]
      refine ⟨?_, ?_, ?_, hgroups, ?_⟩
      · rw [hded2, assignsFrom_snoc]
      · rw [hded2, idxAssoc_snoc]
        congr 3
        omega
      · rw [hded2, List.map_append, ← List.append_assoc]
        congr 1
        · have hm : (dedupByName [] (flats xs)).map
              (fun f => (lastFlatVal f.name (xs ++ [p])).getD GoVal.vNull) =
              (dedupByName [] (flats xs)).map
                (fun f => (lastFlatVal f.name xs).getD GoVal.vNull) := by
            apply List.map_congr_left
            intro f hf
            rw [hlast f.name]
            have hfn : f.name ≠ p.1.name := by
              intro he
              apply hnone
              rw [← he]
              exact List.mem_map_of_mem Field.name hf
            rw [if_neg (fun e => hfn e.symm)]
          rw [hm]
        · simp only [List.map_singleton]
          rw [hlast p.1.name, if_pos rfl]
          rfl
      · rw [hded2]
        simp only [List.length_append, List.length_singleton]
        omega
  · -- document pair: only the jsonb groups change
    have hflats : flats (xs ++ [p]) = flats xs := by
      rw [flats_snoc, if_neg hp, List.append_nil]
    have hlast : ∀ n, lastFlatVal n (xs ++ [p]) = lastFlatVal n xs := by
      intro n
      rw [lastFlatVal_snoc, if_neg hp]
    have hstep : updStep (updSpec args xs) p =
        { updSpec args xs with jsonbFields := alUpdate (updSpec args xs).jsonbFields p.1.jsonb (alUpdate ((alLookup (updSpec args xs).jsonbFields p.1.jsonb).getD []) p.1 p.2) } := by
      unfold updStep
      rw [if_pos hp]
    rw [hstep]
    simp only [updSpec]
    simp only [UpdState.mk.injEq]
    refine ⟨by rw [hflats], by rw [hflats], ?_, ?_, by rw [hflats]⟩
    · rw [hflats]
      have : (dedupByName [] (flats xs)).map
          (fun f => (lastFlatVal f.name (xs ++ [p])).getD GoVal.vNull) =
          (dedupByName [] (flats xs)).map
            (fun f => (lastFlatVal f.name xs).getD GoVal.vNull) := by
        apply List.map_congr_left
        intro f _
        rw [hlast f.name]
      rw [this]
    · rw [jsonbGroups_snoc]
      unfold jsonbGroupsStep
      rw [if_pos hp]

theorem upd_fold_spec (args : List GoVal) :
    ∀ (l : List (Field × GoVal)),
      List.foldl updStep
        { fields := [], fieldsIndex := [], values := args, jsonbFields := [],
          i := args.length + 1 } l = updSpec args l := by
  intro l
  induction l using List.reverseRecOn with
  | nil => rw [List.foldl_nil, updSpec_nil]
  | append_singleton xs p ih =>
      rw [List.foldl_append, ih, List.foldl_cons, List.foldl_nil, upd_spec_snoc]

end Furk

namespace Furk

theorem triple_fold_vals :
    ∀ (c : List (Field × GoVal)) (a : String × List GoVal × Nat),
      (c.foldl
        (fun acc q =>
          match acc with
          | (expr, vals, i) =>
              ("jsonb_set(" ++ expr ++ ", '\x7b" ++ q.1.columnName ++ "\x7d', " ++
                dollar i ++ ")",
               vals ++ [GoVal.vStr (jsonMarshal q.2)], i + 1)) a).2.1 =
      a.2.1 ++ c.map (fun q => GoVal.vStr (jsonMarshal q.2)) := by
  intro c
  induction c with
  | nil => intro a; simp
  | cons q t ih =>
      intro a
      rw [List.foldl_cons, ih]
      simp only [List.map_cons]
      rw [List.append_assoc]
      rfl

theorem updJsonbStep_vals (s : UpdState) (p : String × Furk.Changes) :
    (updJsonbStep s p).values =
      s.values ++ p.2.map (fun q => GoVal.vStr (jsonMarshal q.2)) := by
  have h : (updJsonbStep s p).values =
      (p.2.foldl
        (fun acc q =>
          match acc with
          | (expr, vals, i) =>
              ("jsonb_set(" ++ expr ++ ", '\x7b" ++ q.1.columnName ++ "\x7d', " ++
                dollar i ++ ")",
               vals ++ [GoVal.vStr (jsonMarshal q.2)], i + 1))
        ("COALESCE(" ++ p.1 ++ ", '\x7b\x7d'::jsonb)", s.values, s.i)).2.1 := rfl
  rw [h, triple_fold_vals]

theorem updJsonb_fold_vals :
    ∀ (gs : List (String × Furk.Changes)) (s : UpdState),
      (gs.foldl updJsonbStep s).values =
        s.values ++
          (gs.map (fun g => g.2.map (fun q => GoVal.vStr (jsonMarshal q.2)))).join := by
  intro gs
  induction gs with
  | nil => intro s; simp
  | cons g t ih =>
      intro s
      rw [List.foldl_cons, ih, updJsonbStep_vals]
      simp [List.append_assoc]

/-- Every jsonb group has duplicate-free group names, duplicate-free
member fields, and members drawn from the processed list with the
matching group tag. -/
theorem jsonbGroups_inv :
    ∀ (l : List (Field × GoVal)),
      ((jsonbGroups l).map Prod.fst).Nodup ∧
      (∀ g grp, alLookup (jsonbGroups l) g = some grp →
        (grp.map Prod.fst).Nodup ∧ ∀ q ∈ grp, q ∈ l ∧ q.1.jsonb = g) := by
  intro l
  induction l using List.reverseRecOn with
  | nil => exact ⟨List.nodup_nil, fun g grp h => Option.noConfusion h⟩
  | append_singleton xs p ih =>
      obtain ⟨hnd, hmem⟩ := ih
      rw [jsonbGroups_snoc]
      unfold jsonbGroupsStep
      by_cases hp : p.1.jsonb ≠ ""
      · rw [if_pos hp]
        refine ⟨alUpdate_keys_nodup p.1.jsonb _ (jsonbGroups xs) hnd, ?_⟩
        intro g grp h
        by_cases hg : g = p.1.jsonb
        · subst hg
          rw [alLookup_alUpdate_self] at h
          injection h with h
          subst h
          have hinner : ∀ q ∈ (alLookup (jsonbGroups xs) p.1.jsonb).getD [],
              q ∈ xs ∧ q.1.jsonb = p.1.jsonb := by
            cases hl : alLookup (jsonbGroups xs) p.1.jsonb with
            | some grp0 =>
                intro q hq
                exact (hmem p.1.jsonb grp0 hl).2 q hq
            | none =>
                intro q hq
                exact absurd hq (List.not_mem_nil q)
          have hindnd : (List.map Prod.fst
              ((alLookup (jsonbGroups xs) p.1.jsonb).getD [])).Nodup := by
            cases hl : alLookup (jsonbGroups xs) p.1.jsonb with
            | some grp0 =>
                exact (hmem p.1.jsonb grp0 hl).1
            | none =>
                exact List.nodup_nil
          refine ⟨alUpdate_keys_nodup p.1 p.2 _ hindnd, ?_⟩
          intro q hq
          rcases mem_alUpdate p.1 p.2 _ q hq with hq1 | hq2
          · rw [hq1]
            exact ⟨List.mem_append_right xs (List.mem_singleton.mpr rfl), rfl⟩
          · obtain ⟨hx, hj⟩ := hinner q hq2
            exact ⟨List.mem_append_left _ hx, hj⟩
        · rw [alLookup_alUpdate_ne _ _ _ (fun e => hg e.symm)] at h
          obtain ⟨h1, h2⟩ := hmem g grp h
          exact ⟨h1, fun q hq => ⟨List.mem_append_left _ (h2 q hq).1, (h2 q hq).2⟩⟩
      · rw [if_neg hp]
        refine ⟨hnd, ?_⟩
        intro g grp h
        obtain ⟨h1, h2⟩ := hmem g grp h
        exact ⟨h1, fun q hq => ⟨List.mem_append_left _ (h2 q hq).1, (h2 q hq).2⟩⟩

/-- The value stored for field `F` inside its jsonb group is the
right-most value written for `F`. -/
theorem jsonbGroups_lookupF :
    ∀ (l : List (Field × GoVal)) (F : Field), F.jsonb ≠ "" →
      alLookup ((alLookup (jsonbGroups l) F.jsonb).getD []) F =
        lastBy (fun p : Field × GoVal => p.1) Prod.snd F l := by
  intro l
  induction l using List.reverseRecOn with
  | nil => intro F _; rfl
  | append_singleton xs p ih =>
      intro F hF
      have hsnoc : lastBy (fun p : Field × GoVal => p.1) Prod.snd F (xs ++ [p]) =
          if p.1 = F then some p.2
          else lastBy (fun p : Field × GoVal => p.1) Prod.snd F xs := by
        rw [lastBy_append]
        have h1 : lastBy (fun p : Field × GoVal => p.1) Prod.snd F [p] =
            if p.1 = F then some p.2 else none := by
          show (match (none : Option GoVal) with
            | some v => some v
            | none => if p.1 = F then some p.2 else none) = _
          rfl
        rw [h1]
        by_cases hpf : p.1 = F
        · rw [if_pos hpf, if_pos hpf]
        · rw [if_neg hpf, if_neg hpf]
      rw [jsonbGroups_snoc, hsnoc]
      unfold jsonbGroupsStep
      by_cases hp : p.1.jsonb ≠ ""
      · rw [if_pos hp]
        by_cases hg : p.1.jsonb = F.jsonb
        · rw [hg, alLookup_alUpdate_self]
          show alLookup (alUpdate ((alLookup (jsonbGroups xs) F.jsonb).getD [])
            p.1 p.2) F = _
          by_cases hpf : p.1 = F
          · rw [hpf, alLookup_alUpdate_self, if_pos rfl]
          · rw [alLookup_alUpdate_ne _ _ _ hpf, if_neg hpf, ih F hF]
        · have hpf : p.1 ≠ F := fun e => hg (by rw [e])
          rw [alLookup_alUpdate_ne _ _ _ hg, if_neg hpf]
          exact ih F hF
      · rw [if_neg hp]
        have hpf : p.1 ≠ F := by
          intro e
          rw [e] at hp
          exact hp hF
        rw [if_neg hpf]
        exact ih F hF

end Furk

namespace Furk

/-- C2: for change sets `c1, c2` passed in that order to `Insert` or to
`Update` and a field `F` present in both (its last value in `c1` being
`v1` and in `c2` being `v2`), the built statement carries exactly one
column/placeholder for `F`, whose bound parameter is `c2`'s value `v2`,
never `c1`'s: for a flat field the deduplicated column list mentions
`F.name` once, at a position `j` where the insert column, placeholder,
and parameter (resp. the update assignment and parameter, shifted past
the WHERE-clause arguments) all agree and hold `v2`; for a document
field the single jsonb group for `F.jsonb` stores `v2` for `F`, the
marshalled group object maps `F.columnName` to `v2`, and that group is
bound once in both builders' parameter lists. -/
theorem c2_last_write_wins
    (m : Model) (c1 c2 : List (Field × GoVal)) (F : Field) (v1 v2 : GoVal)
    (suffix whereClause : String) (args : List GoVal)
    (hinj : ∀ p ∈ c1 ++ c2, p.1.name = F.name → p.1 = F)
    (hcinj : ∀ p ∈ c1 ++ c2, p.1.jsonb = F.jsonb → p.1.columnName = F.columnName →
      p.1 = F)
    (h1 : lastBy (fun q : Field × GoVal => q.1.name) Prod.snd F.name c1 = some v1)
    (h2 : lastBy (fun q : Field × GoVal => q.1.name) Prod.snd F.name c2 = some v2) :
    (F.jsonb = "" →
      ∃ j, (dedupByName [] (flats (c1 ++ c2))).get? j = some F ∧
        (List.map Field.name (dedupByName [] (flats (c1 ++ c2)))).count F.name = 1 ∧
        (insSpec (c1 ++ c2)).fields.get? j = some F.columnName ∧
        (insSpec (c1 ++ c2)).numbers.get? j = some (dollar (1 + j)) ∧
        (m.Insert [c1, c2] suffix).2.get? j = some v2 ∧
        (updSpec args (c1 ++ c2)).fields.get? j =
          some (F.columnName ++ " = " ++ dollar (args.length + 1 + j)) ∧
        (m.Update [c1, c2] whereClause args).2.get? (args.length + j) = some v2) ∧
    (F.jsonb ≠ "" →
      ∃ grp, alLookup (jsonbGroups (c1 ++ c2)) F.jsonb = some grp ∧
        (List.map Prod.fst (jsonbGroups (c1 ++ c2))).Nodup ∧
        alLookup grp F = some v2 ∧
        alLookup (grp.foldl (fun out q => alUpdate out q.1.columnName q.2) [])
          F.columnName = some v2 ∧
        GoVal.vStr (jsonbGroupText grp) ∈ (m.Insert [c1, c2] suffix).2 ∧
        GoVal.vStr (jsonMarshal v2) ∈ (m.Update [c1, c2] whereClause args).2) := by
  have hl2 : lastBy (fun q : Field × GoVal => q.1.name) Prod.snd F.name (c1 ++ c2) =
      some v2 := by
    rw [lastBy_append, h2]
  have hs1 : [c1, c2].foldl (fun st (c : Furk.Changes) => c.foldl insStep st) insInit =
      insSpec (c1 ++ c2) := by
    show List.foldl insStep (List.foldl insStep insInit c1) c2 = _
    rw [← List.foldl_append, ins_fold_spec]
  have hins2 : (m.Insert [c1, c2] suffix).2 =
      (insSpec (c1 ++ c2)).values ++
        (jsonbGroups (c1 ++ c2)).map (fun g => GoVal.vStr (jsonbGroupText g.2)) := by
    show (([c1, c2].foldl (fun st (c : Furk.Changes) => c.foldl insStep st)
        insInit).jsonbFields.foldl insJsonbStep
        ([c1, c2].foldl (fun st (c : Furk.Changes) => c.foldl insStep st)
          insInit)).values = _
    rw [hs1]
    exact (insJsonb_fold _ _).1
  have hu1 : [c1, c2].foldl (fun st (c : Furk.Changes) => c.foldl updStep st)
      { fields := [], fieldsIndex := [], values := args, jsonbFields := [],
        i := args.length + 1 } = updSpec args (c1 ++ c2) := by
    show List.foldl updStep (List.foldl updStep _ c1) c2 = _
    rw [← List.foldl_append, upd_fold_spec]
  have hupd2 : (m.Update [c1, c2] whereClause args).2 =
      (updSpec args (c1 ++ c2)).values ++
        ((jsonbGroups (c1 ++ c2)).map
          (fun g => g.2.map (fun q => GoVal.vStr (jsonMarshal q.2)))).join := by
    show (([c1, c2].foldl (fun st (c : Furk.Changes) => c.foldl updStep st)
        { fields := [], fieldsIndex := [], values := args, jsonbFields := [],
          i := args.length + 1 }).jsonbFields.foldl updJsonbStep
        ([c1, c2].foldl (fun st (c : Furk.Changes) => c.foldl updStep st)
          { fields := [], fieldsIndex := [], values := args, jsonbFields := [],
            i := args.length + 1 })).values = _
    rw [hu1]
    exact updJsonb_fold_vals _ _
  constructor
  · -- flat field
    intro hflat
    have hlv : lastFlatVal F.name (c1 ++ c2) = some v2 := by
      unfold lastFlatVal flats
      rw [lastBy_filter _ _ _ _ (c1 ++ c2)
        (fun p hp hn => by rw [hinj p hp hn]; simp [hflat]), hl2]
    have hany : ((flats (c1 ++ c2)).any fun q => decide (q.1.name = F.name)) = true := by
      obtain ⟨q, hq, hk⟩ := lastBy_some_ex _ _ _ (flats (c1 ++ c2)) v2 hlv
      exact List.any_eq_true.mpr ⟨q, hq, by simp [hk]⟩
    have hmm : F.name ∈ (dedupByName [] (flats (c1 ++ c2))).map Field.name :=
      (dedup_mem_names (flats (c1 ++ c2)) [] F.name).mpr ⟨rfl, hany⟩
    obtain ⟨j, fj, hget, hfn, hlook⟩ :=
      idxAssoc_lookup F.name (dedupByName [] (flats (c1 ++ c2))) 0
        (dedup_names_nodup (flats (c1 ++ c2)) []) hmm
    have hfj : fj = F := by
      obtain ⟨p, hp, hpf⟩ := dedup_sub (flats (c1 ++ c2)) [] fj (List.get?_mem hget)
      have hpm : p ∈ c1 ++ c2 := List.mem_of_mem_filter hp
      have := hinj p hpm (by rw [hpf, hfn])
      rw [← hpf, this]
    rw [hfj] at hget
    have hjlt : j < (dedupByName [] (flats (c1 ++ c2))).length := by
      have := List.get?_eq_some.mp hget
      exact this.1
    refine ⟨j, hget, ?_, ?_, ?_, ?_, ?_, ?_⟩
    · exact List.count_eq_one_of_mem (dedup_names_nodup (flats (c1 ++ c2)) []) hmm
    · show ((dedupByName [] (flats (c1 ++ c2))).map (fun f => f.columnName)).get? j = _
      rw [List.get?_map, hget]
      rfl
    · show (dollarsFrom 1 (dedupByName [] (flats (c1 ++ c2))).length).get? j = _
      exact dollarsFrom_get _ 1 j hjlt
    · rw [hins2]
      have hlen : j < (insSpec (c1 ++ c2)).values.length := by
        show j < ((dedupByName [] (flats (c1 ++ c2))).map
          (fun f => (lastFlatVal f.name (c1 ++ c2)).getD GoVal.vNull)).length
        rw [List.length_map]
        exact hjlt
      rw [List.get?_append hlen]
      show ((dedupByName [] (flats (c1 ++ c2))).map
        (fun f => (lastFlatVal f.name (c1 ++ c2)).getD GoVal.vNull)).get? j = _
      rw [List.get?_map, hget]
      show some ((lastFlatVal F.name (c1 ++ c2)).getD GoVal.vNull) = _
      rw [hlv]
      rfl
    · show (assignsFrom (args.length + 1) (dedupByName [] (flats (c1 ++ c2)))).get? j = _
      rw [assignsFrom_get _ _ j F hget]
    · rw [hupd2]
      have hlen : args.length + j < (updSpec args (c1 ++ c2)).values.length := by
        show args.length + j < (args ++ (dedupByName [] (flats (c1 ++ c2))).map
          (fun f => (lastFlatVal f.name (c1 ++ c2)).getD GoVal.vNull)).length
        rw [List.length_append, List.length_map]
        omega
      rw [List.get?_append hlen]
      show (args ++ (dedupByName [] (flats (c1 ++ c2))).map
        (fun f => (lastFlatVal f.name (c1 ++ c2)).getD GoVal.vNull)).get?
          (args.length + j) = _
      rw [List.get?_append_right (by omega)]
      have hidx : args.length + j - args.length = j := by omega
      rw [hidx, List.get?_map, hget]
      show some ((lastFlatVal F.name (c1 ++ c2)).getD GoVal.vNull) = _
      rw [hlv]
      rfl
  · -- document field
    intro hnb
    have hlF : lastBy (fun p : Field × GoVal => p.1) Prod.snd F (c1 ++ c2) =
        some v2 := by
      have hcond : ∀ p ∈ c1 ++ c2,
          ((fun p : Field × GoVal => p.1) p = F ↔
            (fun q : Field × GoVal => q.1.name) p = F.name) := by
        intro p hp
        constructor
        · intro e
          have e2 : p.1 = F := e
          show p.1.name = F.name
          rw [e2]
        · intro e
          exact hinj p hp e
      rw [lastBy_congr (fun p : Field × GoVal => p.1)
        (fun q : Field × GoVal => q.1.name) Prod.snd F F.name (c1 ++ c2) hcond, hl2]
    have hgl := jsonbGroups_lookupF (c1 ++ c2) F hnb
    rw [hlF] at hgl
    cases hgrp : alLookup (jsonbGroups (c1 ++ c2)) F.jsonb with
    | none =>
        rw [hgrp] at hgl
        exact absurd hgl (by simp [alLookup])
    | some grp =>
        rw [hgrp] at hgl
        have hglv : alLookup grp F = some v2 := hgl
        have hinv := (jsonbGroups_inv (c1 ++ c2)).2 F.jsonb grp hgrp
        refine ⟨grp, rfl, (jsonbGroups_inv (c1 ++ c2)).1, hglv, ?_, ?_, ?_⟩
        · have hcc : ∀ q ∈ grp, ((fun q : Field × GoVal => q.1.columnName) q =
              F.columnName ↔ Prod.fst q = F) := by
            intro q hq
            constructor
            · intro e
              exact hcinj q (hinv.2 q hq).1 (hinv.2 q hq).2 e
            · intro e
              show q.1.columnName = F.columnName
              rw [show q.1 = F from e]
          have hlast2 : lastBy (fun q : Field × GoVal => q.1.columnName) Prod.snd
              F.columnName grp = some v2 := by
            rw [lastBy_congr _ Prod.fst Prod.snd F.columnName F grp hcc,
              alLookup_eq_lastBy F grp hinv.1, hglv]
          have hobj := foldl_alUpdate_lookup
            (fun q : Field × GoVal => q.1.columnName) Prod.snd grp [] F.columnName
          rw [hlast2] at hobj
          exact hobj
        · rw [hins2]
          apply List.mem_append_right
          have hm1 : (F.jsonb, grp) ∈ jsonbGroups (c1 ++ c2) :=
            alLookup_mem F.jsonb grp (jsonbGroups (c1 ++ c2)) hgrp
          exact List.mem_map_of_mem (fun g => GoVal.vStr (jsonbGroupText g.2)) hm1
        · rw [hupd2]
          apply List.mem_append_right
          have hm1 : (F.jsonb, grp) ∈ jsonbGroups (c1 ++ c2) :=
            alLookup_mem F.jsonb grp (jsonbGroups (c1 ++ c2)) hgrp
          have hm2 : (F, v2) ∈ grp := alLookup_mem F v2 grp hglv
          apply List.mem_join.mpr
          refine ⟨grp.map (fun q => GoVal.vStr (jsonMarshal q.2)), ?_, ?_⟩
          · exact List.mem_map_of_mem
              (fun g => g.2.map (fun q => GoVal.vStr (jsonMarshal q.2))) hm1
          · exact List.mem_map_of_mem (fun q => GoVal.vStr (jsonMarshal q.2)) hm2

end Furk

namespace Furk

/-- The flat `Name` field of the scenario `Post` model, used to witness
the last-write-wins theorem at a concrete input. -/
def c2F : Field :=
  { name := "Name", columnName := "name", jsonName := "Name", jsonb := "",
    dataType := "text DEFAULT ''::text NOT NULL", exported := true }

/-- Witness for `c2_last_write_wins`: two singleton change sets both
writing the flat `Name` field, the first with `"a"`, the second with
`"b"`. -/
theorem c2_last_write_wins_witness :
    (∀ p ∈ ([(c2F, GoVal.vStr "a")] ++ [(c2F, GoVal.vStr "b")] :
        List (Field × GoVal)), p.1.name = c2F.name → p.1 = c2F) ∧
    (∀ p ∈ ([(c2F, GoVal.vStr "a")] ++ [(c2F, GoVal.vStr "b")] :
        List (Field × GoVal)), p.1.jsonb = c2F.jsonb →
        p.1.columnName = c2F.columnName → p.1 = c2F) ∧
    lastBy (fun q : Field × GoVal => q.1.name) Prod.snd c2F.name
      [(c2F, GoVal.vStr "a")] = some (GoVal.vStr "a") ∧
    lastBy (fun q : Field × GoVal => q.1.name) Prod.snd c2F.name
      [(c2F, GoVal.vStr "b")] = some (GoVal.vStr "b") ∧
    ((c2F.jsonb = "" →
      ∃ j, (dedupByName [] (flats ([(c2F, GoVal.vStr "a")] ++
          [(c2F, GoVal.vStr "b")]))).get? j = some c2F ∧
        (List.map Field.name (dedupByName [] (flats ([(c2F, GoVal.vStr "a")] ++
          [(c2F, GoVal.vStr "b")])))).count c2F.name = 1 ∧
        (insSpec ([(c2F, GoVal.vStr "a")] ++
          [(c2F, GoVal.vStr "b")])).fields.get? j = some c2F.columnName ∧
        (insSpec ([(c2F, GoVal.vStr "a")] ++
          [(c2F, GoVal.vStr "b")])).numbers.get? j = some (dollar (1 + j)) ∧
        (postModel.Insert [[(c2F, GoVal.vStr "a")], [(c2F, GoVal.vStr "b")]]
          "RETURNING id").2.get? j = some (GoVal.vStr "b") ∧
        (updSpec [GoVal.vInt 7] ([(c2F, GoVal.vStr "a")] ++
          [(c2F, GoVal.vStr "b")])).fields.get? j =
          some (c2F.columnName ++ " = " ++ dollar ([GoVal.vInt 7].length + 1 + j)) ∧
        (postModel.Update [[(c2F, GoVal.vStr "a")], [(c2F, GoVal.vStr "b")]]
          "WHERE id = $1" [GoVal.vInt 7]).2.get? ([GoVal.vInt 7].length + j) =
          some (GoVal.vStr "b")) ∧
    (c2F.jsonb ≠ "" →
      ∃ grp, alLookup (jsonbGroups ([(c2F, GoVal.vStr "a")] ++
          [(c2F, GoVal.vStr "b")])) c2F.jsonb = some grp ∧
        (List.map Prod.fst (jsonbGroups ([(c2F, GoVal.vStr "a")] ++
          [(c2F, GoVal.vStr "b")]))).Nodup ∧
        alLookup grp c2F = some (GoVal.vStr "b") ∧
        alLookup (grp.foldl (fun out q => alUpdate out q.1.columnName q.2) [])
          c2F.columnName = some (GoVal.vStr "b") ∧
        GoVal.vStr (jsonbGroupText grp) ∈
          (postModel.Insert [[(c2F, GoVal.vStr "a")], [(c2F, GoVal.vStr "b")]]
            "RETURNING id").2 ∧
        GoVal.vStr (jsonMarshal (GoVal.vStr "b")) ∈
          (postModel.Update [[(c2F, GoVal.vStr "a")], [(c2F, GoVal.vStr "b")]]
            "WHERE id = $1" [GoVal.vInt 7]).2)) :=
  ⟨by decide, by decide, by decide, by decide,
    c2_last_write_wins postModel [(c2F, GoVal.vStr "a")] [(c2F, GoVal.vStr "b")]
      c2F (GoVal.vStr "a") (GoVal.vStr "b") "RETURNING id" "WHERE id = $1"
      [GoVal.vInt 7] (by decide) (by decide) (by decide) (by decide)⟩

end Furk
